import Mathlib

/-!
Verification of the cc-fs repository (an integrity-protected read-only
filesystem over tar archives) against its natural-language specification.

The development is a shallow embedding of the Rust sources:

* src/hash.rs  — incremental SHA-256 engine with snapshotable states;
* src/index.rs — inode table, comparator, binary search, hard-link
  resolution and the process() preparation pass;
* src/tar.rs   — one-pass tar parser and index builder;
* src/fs.rs    — the FUSE server operations (lookup, readdir, read).

Modelling conventions:

* Rust byte buffers and Rust String values are both embedded as List Nat
  (Rust String comparison and slicing is byte-based, so nothing is lost;
  UTF-8 validity checks of the source are elided and noted at each spot).
* Machine integers are Nat with explicit reductions modulo 2^16 / 2^32 /
  2^64 exactly where the Rust code can wrap (release-profile semantics).
* Fallible Rust code (Result, panics, out-of-bounds indexing) is embedded
  in Option, with none covering the error/panic outcome; unbounded loops
  receive an explicit fuel parameter, with none also covering running out
  of fuel.
* The FUSE reply objects are embedded as an ordered list of observable
  events, so that the order of reply.data relative to the verification
  loop in read() is captured faithfully.

All definitions are executable, so every theorem with hypotheses comes
with a concrete witness evaluated by the kernel.
-/

set_option maxRecDepth 100000

namespace Cc

/-! ## SHA-256 core (the compress256 primitive used by src/hash.rs)

src/hash.rs delegates the compression function to the sha2 crate's
compress256.  That crate is outside this repository; it implements the
standard FIPS 180-4 SHA-256 compression function, which is embedded
here directly. -/

/-- Reduce to a 32-bit word. -/
def u32 (x : Nat) : Nat := x % 4294967296

/-- Rotate a 32-bit word right by n. -/
def rotr32 (n x : Nat) : Nat := (x >>> n) ||| (u32 (x <<< (32 - n)))

/-- FIPS 180-4 big sigma 0. -/
def bsig0 (x : Nat) : Nat := rotr32 2 x ^^^ rotr32 13 x ^^^ rotr32 22 x

/-- FIPS 180-4 big sigma 1. -/
def bsig1 (x : Nat) : Nat := rotr32 6 x ^^^ rotr32 11 x ^^^ rotr32 25 x

/-- FIPS 180-4 small sigma 0. -/
def ssig0 (x : Nat) : Nat := rotr32 7 x ^^^ rotr32 18 x ^^^ (x >>> 3)

/-- FIPS 180-4 small sigma 1. -/
def ssig1 (x : Nat) : Nat := rotr32 17 x ^^^ rotr32 19 x ^^^ (x >>> 10)

/-- FIPS 180-4 choice function (32-bit complement via xor mask). -/
def chFn (e f g : Nat) : Nat := (e &&& f) ^^^ ((4294967295 ^^^ e) &&& g)

/-- FIPS 180-4 majority function. -/
def majFn (a b c : Nat) : Nat := (a &&& b) ^^^ (a &&& c) ^^^ (b &&& c)

/-- The 64 SHA-256 round constants. -/
def sha256K : List Nat :=
  [1116352408, 1899447441, 3049323471, 3921009573, 961987163, 1508970993,
   2453635748, 2870763221, 3624381080, 310598401, 607225278, 1426881987,
   1925078388, 2162078206, 2614888103, 3248222580, 3835390401, 4022224774,
   264347078, 604807628, 770255983, 1249150122, 1555081692, 1996064986,
   2554220882, 2821834349, 2952996808, 3210313671, 3336571891, 3584528711,
   113926993, 338241895, 666307205, 773529912, 1294757372, 1396182291,
   1695183700, 1986661051, 2177026350, 2456956037, 2730485921, 2820302411,
   3259730800, 3345764771, 3516065817, 3600352804, 4094571909, 275423344,
   430227734, 506948616, 659060556, 883997877, 958139571, 1322822218,
   1537002063, 1747873779, 1955562222, 2024104815, 2227730452, 2361852424,
   2428436474, 2756734187, 3204031479, 3329325298]

/-- The SHA-256 initial state (also used by Hasher::new in src/hash.rs). -/
def sha256Init : List Nat :=
  [1779033703, 3144134277, 1013904242, 2773480762,
   1359893119, 2600822924, 528734635, 1541459225]

/-- Big-endian 32-bit word from (up to) four bytes. -/
def beWord (l : List Nat) : Nat :=
  l.getD 0 0 * 16777216 + l.getD 1 0 * 65536 + l.getD 2 0 * 256 + l.getD 3 0

/-- The sixteen message words of one 64-byte block. -/
def toBlockWords (b : List Nat) : List Nat :=
  (List.range 16).map (fun i => beWord ((b.drop (4 * i)).take 4))

/-- Extend the message schedule by k further words. -/
def scheduleW (w : List Nat) : Nat → List Nat
  | 0 => w
  | k + 1 =>
    scheduleW
      (w ++ [u32 (w.getD (w.length - 16) 0 + ssig0 (w.getD (w.length - 15) 0)
        + w.getD (w.length - 7) 0 + ssig1 (w.getD (w.length - 2) 0))]) k

/-- One SHA-256 round applied to the eight working variables. -/
def roundFn (s : List Nat) (kw : Nat) : List Nat :=
  match s with
  | [a, b, c, d, e, f, g, h] =>
    let t1 := u32 (h + bsig1 e + chFn e f g + kw)
    let t2 := u32 (bsig0 a + majFn a b c)
    [u32 (t1 + t2), a, b, c, u32 (d + t1), e, f, g]
  | s => s

/-- SHA-256 compression of a single 64-byte block. -/
def compress1 (s : List Nat) (block : List Nat) : List Nat :=
  let w := scheduleW (toBlockWords block) 48
  let kw := List.zipWith (fun k wi => u32 (k + wi)) sha256K w
  let fin := kw.foldl roundFn s
  List.zipWith (fun x y => u32 (x + y)) s fin

/-- Auxiliary recursion for compressBlocks: the Nat argument is a bound
on the number of remaining bytes, so the recursion is structural and the
function evaluates inside the kernel. -/
def compressBlocksAux : Nat → List Nat → List Nat → List Nat
  | 0, s, _ => s
  | _ + 1, s, [] => s
  | n + 1, s, b => compressBlocksAux n (compress1 s (b.take 64)) (b.drop 64)

/-- Compression of a byte sequence 64 bytes at a time (the behaviour of
compress256 on a slice of blocks; callers only pass multiples of 64). -/
def compressBlocks (s : List Nat) (b : List Nat) : List Nat :=
  compressBlocksAux b.length s b

/-- Big-endian eight-byte rendering of a 64-bit value, as written by
Hasher::finalize in src/hash.rs (eight shift-and-mask steps). -/
def be64 (bits : Nat) : List Nat :=
  [(bits >>> 56) &&& 255, (bits >>> 48) &&& 255, (bits >>> 40) &&& 255,
   (bits >>> 32) &&& 255, (bits >>> 24) &&& 255, (bits >>> 16) &&& 255,
   (bits >>> 8) &&& 255, bits &&& 255]

/-- One lowercase hex digit character code. -/
def hexDigit (n : Nat) : Nat := if n < 10 then 48 + n else 87 + n

/-- Lowercase 8-hex-digit rendering of a 32-bit word, as character codes. -/
def hexWord (x : Nat) : List Nat :=
  [hexDigit (x >>> 28 % 16), hexDigit (x >>> 24 % 16), hexDigit (x >>> 20 % 16),
   hexDigit (x >>> 16 % 16), hexDigit (x >>> 12 % 16), hexDigit (x >>> 8 % 16),
   hexDigit (x >>> 4 % 16), hexDigit (x % 16)]

/-- Hex rendering of the eight state words (the digest string, as bytes). -/
def hexState (s : List Nat) : List Nat := (s.map hexWord).flatten

/-! ## Hasher (src/hash.rs) -/

/-- Hasher (src/hash.rs): saved intermediate states, the current state,
the processed length and the digest (a Rust String, embedded as the list
of its bytes). -/
structure Hasher where
  states : List (List Nat) := []
  state : List Nat := sha256Init
  len : Nat := 0
  digest : List Nat := []
deriving DecidableEq, Repr

/-- Hasher::new (the capacity hint does not affect behaviour). -/
def Hasher.new : Hasher := {}

/-- Hasher::measure: compress a chunk whose length must be a multiple of
64 bytes, and add its length to the running total.  none embeds the
BadBlockSize error. -/
def Hasher.measure (h : Hasher) (buf : List Nat) : Option Hasher :=
  if buf.length % 64 = 0 then
    some { h with state := compressBlocks h.state buf, len := h.len + buf.length }
  else none

/-- Hasher::save_state: push the current state; the returned position is
states.len() as u32 - 1 computed with u32 wrapping, which equals the old
length modulo 2^32. -/
def Hasher.saveState (h : Hasher) : Hasher × Nat :=
  ({ h with states := h.states ++ [h.state] }, h.states.length % 4294967296)

/-- Hasher::finalize: measure one trailing block holding the 0x80
terminator and the big-endian bit count (u64 wrapping), then render the
digest. -/
def Hasher.finalize (h : Hasher) : Option Hasher :=
  let bits := h.len * 8 % 18446744073709551616
  let block := 128 :: (List.replicate 55 0 ++ be64 bits)
  (h.measure block).map fun h' => { h' with digest := hexState h'.state }

/-- Hasher::verify: load the state at pos, compress the chunk, compare
with the state at pos + 1.  none embeds both the out-of-bounds panic and
the BadBlockSize error (the caller in read() treats any non-Ok(true)
outcome identically). -/
def Hasher.verify (h : Hasher) (pos : Nat) (buf : List Nat) : Option Bool :=
  if pos + 1 < h.states.length then
    if buf.length % 64 = 0 then
      some (compressBlocks (h.states.getD pos []) buf = h.states.getD (pos + 1) [])
    else none
  else none

/-! ## Reference SHA-256 (specification side)

Modelled from the spec: the claim about Parser::parse compares the stored
digest with the SHA-256 of the whole byte stream as computed by a
conforming reference implementation; this is the FIPS 180-4 definition
(pad with 0x80, zeros, and the 64-bit big-endian bit count to a block
boundary, then compress the padded message from the initial state). -/

/-- Standard SHA-256 padding for a message of L bytes. -/
def sha256Pad (L : Nat) : List Nat :=
  128 :: (List.replicate ((119 - L % 64) % 64) 0 ++ be64 (8 * L % 18446744073709551616))

/-- Reference SHA-256 digest of a byte sequence, as 64 lowercase hex
character codes. -/
def sha256Ref (msg : List Nat) : List Nat :=
  hexState (compressBlocks sha256Init (msg ++ sha256Pad msg.length))

/-! ## Index data model (src/index.rs) -/

/-- FileType (src/index.rs). -/
inductive FileType where
  | RegularFile
  | HardLink
  | SymLink
  | CharDevice
  | Directory
deriving DecidableEq, Repr

instance : Inhabited FileType := ⟨.RegularFile⟩

/-- Extra (src/index.rs): infrequent properties, from PAX/GNU extensions. -/
structure Extra where
  link : List Nat := []
  uname : List Nat := []
  gname : List Nat := []
  xattrs : List (List Nat × List Nat) := []
deriving DecidableEq, Repr

/-- Inode (src/index.rs).  Field defaults mirror Inode::default(). -/
structure Inode where
  typeflag : FileType := .RegularFile
  name : List Nat := []
  parent : List Nat := []
  size : Nat := 0
  uid : Nat := 0
  gid : Nat := 0
  mode : Nat := 0
  mtime : Nat := 0
  extra : Option Extra := none
  num : Nat := 0
  hash_index : Nat := 0
  child_inode : Nat := 0
  num_children : Nat := 0
  offset : Nat := 0
  depth : Nat := 0
  links : Nat := 0
  target_ino : Nat := 0
deriving DecidableEq, Repr

instance : Inhabited Inode := ⟨{}⟩

/-- Index (src/index.rs): the inode table plus the hasher. -/
structure Index where
  inodes : List Inode := []
  hasher : Hasher := Hasher.new
deriving DecidableEq, Repr

/-- Rust Ord::cmp on integers. -/
def natCmp (a b : Nat) : Ordering :=
  if a < b then .lt else if a = b then .eq else .gt

/-- Rust Ord::cmp on String / byte slices (lexicographic on bytes). -/
def compareBytes : List Nat → List Nat → Ordering
  | [], [] => .eq
  | [], _ :: _ => .lt
  | _ :: _, [] => .gt
  | a :: as', b :: bs' =>
    match natCmp a b with
    | .eq => compareBytes as' bs'
    | o => o

/-- Index::cmp_inodes (src/index.rs): depth, then parent length, then
parent, then name. -/
def cmp_inodes (a b : Inode) : Ordering :=
  match natCmp a.depth b.depth with
  | .eq =>
    match natCmp a.parent.length b.parent.length with
    | .eq =>
      match compareBytes a.parent b.parent with
      | .eq => compareBytes a.name b.name
      | o => o
    | o => o
  | o => o

/-- Inode::path_eq (src/index.rs): strip one trailing slash (except for
the root path), then compare length, parent prefix and name suffix. -/
def path_eq (inode : Inode) (path : List Nat) : Bool :=
  let path' := if path.getLast? = some 47 ∧ 1 < path.length then path.dropLast else path
  decide (path'.length = inode.name.length + inode.parent.length)
    && decide (inode.name = path'.drop inode.parent.length)
    && decide (inode.parent = path'.take inode.parent.length)

/-- Index of the last occurrence of a byte (String::rfind). -/
def rfindIdx : List Nat → Nat → Option Nat
  | [], _ => none
  | x :: xs, c =>
    match rfindIdx xs c with
    | some i => some (i + 1)
    | none => if x = c then some 0 else none

/-- The depth formula parent.split("/").count() - 1 as u16, used both by
Index::find and by Parser::parse_header: one less than the number of
slash-separated components, i.e. the number of slashes, truncated to u16. -/
def pathDepth (parent : List Nat) : Nat := parent.count 47 % 65536

/-- Result of slice::binary_search_by. -/
inductive BSearch where
  | ok (i : Nat)
  | err (i : Nat)
deriving DecidableEq, Repr

/-- The Rust standard library binary_search_by loop.  The fuel argument
bounds the iteration count (the interval shrinks at every step, so any
fuel of at least the slice length is enough); it keeps the recursion
structural so the kernel can evaluate it. -/
def binarySearchAux (v : List Inode) (f : Inode → Ordering) :
    Nat → Nat → Nat → BSearch
  | 0, left, _ => .err left
  | fuel + 1, left, right =>
    if left < right then
      let mid := left + (right - left) / 2
      match f (v.getD mid default) with
      | .lt => binarySearchAux v f fuel (mid + 1) right
      | .gt => binarySearchAux v f fuel left mid
      | .eq => .ok mid
    else .err left

/-- slice::binary_search_by. -/
def binarySearchBy (v : List Inode) (f : Inode → Ordering) : BSearch :=
  binarySearchAux v f (v.length + 1) 0 v.length

/-- Index::find (src/index.rs) over the inode table.  none embeds both
the anyhow error (not-found) and the slicing panic; every caller in the
sources either propagates the error or treats it as not-found, and the
slice bounds are in range at every call site. -/
def find (inodes : List Inode) (path : List Nat) (start_ino end_ino : Nat) :
    Option Nat :=
  if path = [47] ∨ path.length = 0 then some 1
  else
    let path' := if path.getLast? = some 47 then path.dropLast else path
    match rfindIdx path' 47 with
    | none => none
    | some p =>
      let parent := path'.take (p + 1)
      let probe : Inode :=
        { name := path'.drop (p + 1), depth := pathDepth parent, parent := parent }
      if start_ino ≤ end_ino ∧ end_ino ≤ inodes.length then
        match binarySearchBy ((inodes.take end_ino).drop start_ino)
            (fun a => cmp_inodes a probe) with
        | .ok q => some (start_ino + q)
        | .err _ => none
      else none

/-- One iteration of the loop in Index::get_hard_link_target. -/
inductive HltStep where
  | stop (r : Option Nat)
  | go (j : Nat)
deriving DecidableEq, Repr

/-- The body of the loop in Index::get_hard_link_target (src/index.rs):
on a hard link with an extra record, normalize the link to an absolute
path and find it over the whole table; a failed find stops with 0, a
non-hard-link stops with the current inode number.  stop none embeds the
out-of-bounds indexing panic. -/
def hard_link_step (inodes : List Inode) (ino : Nat) : HltStep :=
  match inodes[ino]? with
  | none => .stop none
  | some inode =>
    match inode.extra, inode.typeflag with
    | some e, .HardLink =>
      let link := if e.link.head? = some 47 then e.link else 47 :: e.link
      match find inodes link 0 inodes.length with
      | some p => .go p
      | none => .stop (some 0)
    | _, _ => .stop (some ino)

/-- Index::get_hard_link_target (src/index.rs).  The source loop has no
iteration bound; the fuel argument makes the embedding total, with none
meaning that the loop has not produced a result within the given number
of iterations. -/
def get_hard_link_target (inodes : List Inode) : Nat → Nat → Option Nat
  | 0, _ => none
  | fuel + 1, ino =>
    match hard_link_step inodes ino with
    | .stop r => r
    | .go j => get_hard_link_target inodes fuel j

/-- Field update num_children += 1 (u32). -/
def bumpChildren (x : Inode) : Inode :=
  { x with num_children := (x.num_children + 1) % 4294967296 }

/-- Field update child_inode = v as u32. -/
def setChildInode (x : Inode) (v : Nat) : Inode :=
  { x with child_inode := v % 4294967296 }

/-- Field update links = v (u16 constant). -/
def setLinks (x : Inode) (v : Nat) : Inode := { x with links := v % 65536 }

/-- Field update links += 1 (u16). -/
def bumpLinks (x : Inode) : Inode := { x with links := (x.links + 1) % 65536 }

/-- Field update target_ino = v (u32). -/
def setTargetIno (x : Inode) (v : Nat) : Inode :=
  { x with target_ino := v % 4294967296 }

/-- The child-collection loop of Index::process (src/index.rs), from
item i with current parent curParent: a node whose parent path names the
current parent is one more of its children; otherwise the parent is
located with find over the preceding slice, asserted to have no first
child yet (none embeds the assert panic), and recorded.  Fuel structural
recursion; any fuel of at least the table length is enough. -/
def childLoop : Nat → List Inode → Nat → Nat → Option (List Inode)
  | 0, l, _, _ => some l
  | fuel + 1, l, curParent, i =>
    if i < l.length then
      if path_eq (l.getD curParent default) (l.getD i default).parent then
        childLoop fuel (l.set curParent (bumpChildren (l.getD curParent default)))
          curParent (i + 1)
      else
        match find l (l.getD i default).parent 1 i with
        | none => none
        | some p =>
          if (l.getD p default).child_inode = 0 then
            let l1 := l.set p (setChildInode (l.getD p default) i)
            let l2 := l1.set p (bumpChildren (l1.getD p default))
            childLoop fuel l2 p (i + 1)
          else none
    else some l

/-- The hard-link pass of Index::process (src/index.rs): set links to 1,
resolve the hard-link target, and on a distinct valid target bump its
link count and record it in target_ino.  hlFuel feeds
get_hard_link_target. -/
def linkLoop (hlFuel : Nat) : Nat → List Inode → Nat → Option (List Inode)
  | 0, l, _ => some l
  | fuel + 1, l, i =>
    if i < l.length then
      let l1 := l.set i (setLinks (l.getD i default) 1)
      match get_hard_link_target l1 hlFuel i with
      | none => none
      | some ino =>
        if 0 < ino ∧ ino ≠ i then
          let l2 := l1.set ino (bumpLinks (l1.getD ino default))
          let l3 := l2.set i (setTargetIno (l2.getD i default) ino)
          linkLoop hlFuel fuel l3 (i + 1)
        else linkLoop hlFuel fuel l1 (i + 1)
    else some l

/-- The sorting relation of Index::process: Rust sort_by with
cmp_inodes, i.e. a is before b when cmp_inodes a b is not gt. -/
def inodeLe (a b : Inode) : Prop := cmp_inodes a b ≠ .gt

instance : DecidableRel inodeLe := fun a b => by unfold inodeLe; infer_instance

/-- Index::process (src/index.rs).  Rust sort_by is a stable sort, whose
output is uniquely determined; it is embedded as the stable insertion
sort from the mathlib library.  none embeds the error return, the assert
failure, the out-of-bounds panics, and hard-link resolution running out
of fuel. -/
def process (hlFuel : Nat) (idx : Index) : Option Index :=
  let sorted := List.insertionSort inodeLe idx.inodes
  if 2 ≤ sorted.length then
    let l0 := sorted.set 1 (setChildInode (sorted.getD 1 default) 2)
    match childLoop l0.length l0 1 2 with
    | none => none
    | some l1 =>
      let l2 := l1.set 1 (setLinks (l1.getD 1 default) 2)
      match linkLoop hlFuel l2.length l2 2 with
      | none => none
      | some l3 => some { idx with inodes := l3 }
  else none

/-! ## Tar parser (src/tar.rs)

The reader is embedded as the list of not-yet-consumed bytes.  The
PosixHeader struct is repr(C), so its fields are fixed slices of the
512 header bytes. -/

/-- PosixHeader.name (offset 0, 100 bytes). -/
def hdrName (h : List Nat) : List Nat := h.take 100

/-- PosixHeader.mode (offset 100, 8 bytes). -/
def hdrMode (h : List Nat) : List Nat := (h.drop 100).take 8

/-- PosixHeader.uid (offset 108, 8 bytes). -/
def hdrUid (h : List Nat) : List Nat := (h.drop 108).take 8

/-- PosixHeader.gid (offset 116, 8 bytes). -/
def hdrGid (h : List Nat) : List Nat := (h.drop 116).take 8

/-- PosixHeader.size (offset 124, 12 bytes). -/
def hdrSize (h : List Nat) : List Nat := (h.drop 124).take 12

/-- PosixHeader.mtime (offset 136, 12 bytes). -/
def hdrMtime (h : List Nat) : List Nat := (h.drop 136).take 12

/-- PosixHeader.typeflag (offset 156, 1 byte). -/
def hdrTypeflag (h : List Nat) : Nat := h.getD 156 0

/-- PosixHeader.linkname (offset 157, 100 bytes). -/
def hdrLinkname (h : List Nat) : List Nat := (h.drop 157).take 100

/-- PosixHeader.uname (offset 265, 32 bytes). -/
def hdrUname (h : List Nat) : List Nat := (h.drop 265).take 32

/-- PosixHeader.gname (offset 297, 32 bytes). -/
def hdrGname (h : List Nat) : List Nat := (h.drop 297).take 32

/-- PosixHeader's filename prefix field (offset 345, 155 bytes). -/
def hdrPfx (h : List Nat) : List Nat := (h.drop 345).take 155

/-- ascii_octal_to_u64 accumulator (src/tar.rs): digits 0..7 shift the
accumulator (u64 arithmetic), NUL ends the number, anything else is an
error. -/
def ascii_octal_go (n : Nat) : List Nat → Option Nat
  | [] => some n
  | c :: cs =>
    if 48 ≤ c ∧ c ≤ 55 then
      ascii_octal_go ((n * 8 + (c - 48)) % 18446744073709551616) cs
    else if c = 0 then some n
    else none

/-- ascii_octal_to_u64 (src/tar.rs). -/
def ascii_octal_to_u64 (buf : List Nat) : Option Nat := ascii_octal_go 0 buf

/-- ascii_decimal_to_u64 accumulator (src/tar.rs): digits 0..9, NUL
ends; a dot (floating point) and any other byte are errors. -/
def ascii_decimal_go (n : Nat) : List Nat → Option Nat
  | [] => some n
  | c :: cs =>
    if 48 ≤ c ∧ c ≤ 57 then
      ascii_decimal_go ((n * 10 + (c - 48)) % 18446744073709551616) cs
    else if c = 0 then some n
    else none

/-- ascii_decimal_to_u64 (src/tar.rs). -/
def ascii_decimal_to_u64 (buf : List Nat) : Option Nat := ascii_decimal_go 0 buf

/-- extend (src/tar.rs): copy bytes up to the first NUL. -/
def nulTrunc (l : List Nat) : List Nat := l.takeWhile (· ≠ 0)

/-- Parser::split_path (src/tar.rs): strip one trailing slash, split at
the last slash (no slash: parent is the root), and make the parent
absolute.  The UTF-8 validity check of the source is elided (byte
embedding). -/
def split_path (path : List Nat) : List Nat × List Nat :=
  let path' := if path.getLast? = some 47 then path.dropLast else path
  let pn :=
    match rfindIdx path' 47 with
    | some p => (path'.take (p + 1), path'.drop (p + 1))
    | none => ([47], path')
  if pn.1.head? = some 47 then pn else (47 :: pn.1, pn.2)

/-- Parser state (the fields of struct Parser that persist across the
main loop, src/tar.rs).  The header is passed per-iteration and the
reader is the explicit input list. -/
structure PState where
  size : Nat := 0
  rsize : Nat := 0
  inode : Inode := {}
  extra : Extra := {}
  index : Index := {}
  offset : Nat := 0
deriving DecidableEq, Repr

/-- The skip_next closure of Parser::parse_pax: advance past the next
occurrence of a byte.  The fuel is exactly the remaining distance, which
makes the recursion structural; it reproduces the Rust loop for every
starting position. -/
def skipNextAux (buf : List Nat) (c : Nat) : Nat → Nat → Nat
  | 0, p => p + 1
  | fuel + 1, p =>
    if p < buf.length then
      if buf.getD p 0 = c then p + 1 else skipNextAux buf c fuel (p + 1)
    else p + 1

/-- skip_next from position p. -/
def skipNext (buf : List Nat) (c p : Nat) : Nat := skipNextAux buf c (buf.length - p) p

/-- One PAX record applied to the staged inode/extra (the match in
Parser::parse_pax): path, gid, uid, mtime, gname, uname, linkpath;
anything else is the UnsupportedPaxField error. -/
def paxApply (ino : Inode) (ex : Extra) (field value : List Nat) :
    Option (Inode × Extra) :=
  if field = [112, 97, 116, 104] then
    let pn := split_path value
    some ({ ino with parent := pn.1, name := pn.2 }, ex)
  else if field = [103, 105, 100] then
    (ascii_octal_to_u64 value).map fun v => ({ ino with gid := v % 4294967296 }, ex)
  else if field = [117, 105, 100] then
    (ascii_octal_to_u64 value).map fun v => ({ ino with uid := v % 4294967296 }, ex)
  else if field = [109, 116, 105, 109, 101] then
    (ascii_decimal_to_u64 value).map fun v => ({ ino with mtime := v }, ex)
  else if field = [103, 110, 97, 109, 101] then
    some (ino, { ex with gname := value })
  else if field = [117, 110, 97, 109, 101] then
    some (ino, { ex with uname := value })
  else if field = [108, 105, 110, 107, 112, 97, 116, 104] then
    some (ino, { ex with link := value })
  else none

/-- The record loop of Parser::parse_pax.  Every iteration advances the
cursor by at least three, so fuel buf.length + 1 can never be exhausted
before the loop exits or errors. -/
def paxLoop (buf : List Nat) : Nat → Inode → Extra → Nat → Option (Inode × Extra)
  | 0, _, _, _ => none
  | fuel + 1, ino, ex, p =>
    let nameStart := skipNext buf 32 p
    let q2 := skipNext buf 61 nameStart
    let nameEnd := q2 - 1
    let valueStart := nameEnd + 1
    let q3 := skipNext buf 10 q2
    let valueEnd := q3 - 1
    if buf.length ≤ valueEnd then none
    else
      let field := (buf.take nameEnd).drop nameStart
      let value := (buf.take valueEnd).drop valueStart
      match paxApply ino ex field value with
      | none => none
      | some (ino1, ex1) =>
        if valueEnd + 1 = buf.length ∨ buf.getD (valueEnd + 1) 0 = 0 then
          some (ino1, ex1)
        else paxLoop buf fuel ino1 ex1 q3

/-- Parser::parse_pax (src/tar.rs): read rsize bytes, measure them,
then parse the records. -/
def parse_pax (st : PState) (rest : List Nat) : Option (PState × List Nat) :=
  if st.rsize ≤ rest.length then
    let data := rest.take st.rsize
    match st.index.hasher.measure data with
    | none => none
    | some h1 =>
      match paxLoop data (data.length + 1) st.inode st.extra 0 with
      | none => none
      | some (ino1, ex1) =>
        some ({ st with
                  inode := ino1
                  extra := ex1
                  index := { st.index with hasher := h1 } }, rest.drop st.rsize)
  else none

/-- Parser::parse_gnu (src/tar.rs): read rsize bytes, measure them, and
take the first size bytes as the long name (with split_path) or the
long link. -/
def parse_gnu (isLongName : Bool) (st : PState) (rest : List Nat) :
    Option (PState × List Nat) :=
  if st.rsize ≤ rest.length then
    let data := rest.take st.rsize
    match st.index.hasher.measure data with
    | none => none
    | some h1 =>
      let st1 := { st with index := { st.index with hasher := h1 } }
      if isLongName then
        let pn := split_path (data.take st.size)
        some ({ st1 with inode := { st1.inode with parent := pn.1, name := pn.2 } },
          rest.drop st.rsize)
      else
        some ({ st1 with extra := { st1.extra with link := data.take st.size } },
          rest.drop st.rsize)
  else none

/-- Parser::parse_header (src/tar.rs): fill inode fields not already
supplied by PAX/GNU from the header, in source order.  The size field
never wraps here because a 12-byte octal field is below 2^36. -/
def parse_header (hdr : List Nat) (size : Nat) (ino0 : Inode) (ex0 : Extra) :
    Option (Inode × Extra) := do
  let ino1 ← if ino0.gid = 0 then
      (ascii_octal_to_u64 (hdrGid hdr)).map fun v => { ino0 with gid := v % 4294967296 }
    else some ino0
  let ino2 ← if ino1.uid = 0 then
      (ascii_octal_to_u64 (hdrUid hdr)).map fun v => { ino1 with uid := v % 4294967296 }
    else some ino1
  let ino3 ← if ino2.mtime = 0 then
      (ascii_octal_to_u64 (hdrMtime hdr)).map fun v => { ino2 with mtime := v }
    else some ino2
  let ex1 := if (hdrGname hdr).getD 0 0 ≠ 0 ∧ ex0.gname = [] then
      { ex0 with gname := hdrGname hdr } else ex0
  let ex2 := if (hdrUname hdr).getD 0 0 ≠ 0 ∧ ex1.uname = [] then
      { ex1 with uname := hdrUname hdr } else ex1
  let ino4 := { ino3 with size := size % 4294967296 }
  let ino5 :=
    if ino4.name.length = 0 then
      let buf := (if (hdrPfx hdr).getD 0 0 ≠ 0 then nulTrunc (hdrPfx hdr) ++ [47] else [])
        ++ nulTrunc (hdrName hdr)
      let pn := split_path buf
      { ino4 with parent := pn.1, name := pn.2 }
    else ino4
  let ino6 := { ino5 with depth := pathDepth ino5.parent }
  let ex3 := if (hdrLinkname hdr).getD 0 0 ≠ 0 ∧ ex2.link = [] then
      { ex2 with link := nulTrunc (hdrLinkname hdr) } else ex2
  let ino7 ← (ascii_octal_to_u64 (hdrMode hdr)).map fun v =>
    { ino6 with mode := v % 4294967296 }
  if ex3.link ≠ [] ∨ ex3.uname ≠ [] ∨ ex3.gname ≠ [] ∨ ex3.xattrs ≠ [] then
    some ({ ino7 with extra := some ex3 }, {})
  else
    some (ino7, ex3)

/-- The 4096-byte content loop of Parser::parse_item: read a chunk,
measure it, save the hash state; k = rsize / 4096 iterations. -/
def contentChunks (h : Hasher) : Nat → List Nat → Option (Hasher × List Nat)
  | 0, input => some (h, input)
  | k + 1, input =>
    if 4096 ≤ input.length then
      match h.measure (input.take 4096) with
      | none => none
      | some h1 => contentChunks (h1.saveState).1 k (input.drop 4096)
    else none

/-- The typeflag mapping of Parser::parse_item (src/tar.rs). -/
def typeflagMap : Nat → Option FileType
  | 48 => some FileType.RegularFile
  | 49 => some FileType.HardLink
  | 50 => some FileType.SymLink
  | 53 => some FileType.Directory
  | _ => none

/-- Parser::parse_item (src/tar.rs): parse the header, map the
typeflag, for a regular file save the pre-content hash state into
hash_index and record the 512-block offset, measure the content in
4096-byte chunks with a state save after each, measure the residual
512-rounded chunk with a final save, and push the inode. -/
def parse_item (hdr : List Nat) (st : PState) (rest : List Nat) :
    Option (PState × List Nat) :=
  match parse_header hdr st.size st.inode st.extra with
  | none => none
  | some (ino1, ex1) =>
    match typeflagMap (hdrTypeflag hdr) with
    | none => none
    | some tf =>
      let ino2 := { ino1 with typeflag := tf }
      let hi :=
        if hdrTypeflag hdr = 48 then
          let sv := st.index.hasher.saveState
          (sv.1, { ino2 with hash_index := sv.2, offset := st.offset / 512 })
        else (st.index.hasher, ino2)
      match contentChunks hi.1 (st.rsize / 4096) rest with
      | none => none
      | some (h1, rest1) =>
        let remaining := (st.rsize % 4096 + 511) / 512 * 512
        match (if 0 < remaining then
                 (if remaining ≤ rest1.length then
                    (h1.measure (rest1.take remaining)).map fun hm =>
                      ((hm.saveState).1, rest1.drop remaining)
                  else none)
               else some (h1, rest1)) with
        | none => none
        | some (h2, rest2) =>
          some ({ st with
                    inode := {}
                    extra := ex1
                    index := { inodes := st.index.inodes ++ [hi.2], hasher := h2 } }, rest2)

/-- Offset update after a dispatched item: offset += rsize as u32, with
u32 wrapping. -/
def advOffset (st : PState) : PState :=
  { st with offset := (st.offset + st.rsize % 4294967296) % 4294967296 }

/-- The main loop of Parser::parse (src/tar.rs).  Each iteration reads
and measures a 512-byte header (a shorter remainder ends the loop, as
read_exact fails), parses the size, and dispatches on the typeflag; a
NUL typeflag is skipped without advancing the offset by rsize.  Fuel
input.length / 512 + 1 is always sufficient, since every iteration
consumes at least 512 bytes. -/
def parseLoop : Nat → List Nat → PState → Option PState
  | 0, _, _ => none
  | fuel + 1, input, st =>
    if input.length < 512 then some st
    else
      let hdr := input.take 512
      let rest := input.drop 512
      match st.index.hasher.measure hdr with
      | none => none
      | some h1 =>
        let st1 := { st with
                       index := { st.index with hasher := h1 }
                       offset := (st.offset + 512) % 4294967296 }
        match ascii_octal_to_u64 (hdrSize hdr) with
        | none => none
        | some size =>
          let st2 := { st1 with size := size, rsize := (size + 512 - 1) / 512 * 512 }
          match hdrTypeflag hdr with
          | 120 =>
            match parse_pax st2 rest with
            | none => none
            | some (st3, rest') => parseLoop fuel rest' (advOffset st3)
          | 76 =>
            match parse_gnu true st2 rest with
            | none => none
            | some (st3, rest') => parseLoop fuel rest' (advOffset st3)
          | 75 =>
            match parse_gnu false st2 rest with
            | none => none
            | some (st3, rest') => parseLoop fuel rest' (advOffset st3)
          | 48 | 49 | 50 | 53 =>
            match parse_item hdr st2 rest with
            | none => none
            | some (st3, rest') => parseLoop fuel rest' (advOffset st3)
          | 0 => parseLoop fuel rest st2
          | _ => none

/-- The synthetic root inode seeded by Parser::parse. -/
def rootInode : Inode :=
  { typeflag := .Directory, name := [47], parent := [], mode := 0o755, links := 2 }

/-- Parser::parse (src/tar.rs): seed two root inodes, run the main
loop, finalize the hash, and return the index. -/
def parse (input : List Nat) : Option Index :=
  match parseLoop (input.length / 512 + 1) input
      { index := { inodes := [rootInode, rootInode], hasher := Hasher.new } } with
  | none => none
  | some stF =>
    match stF.index.hasher.finalize with
    | none => none
    | some hF => some { stF.index with hasher := hF }

/-! ## Filesystem server (src/fs.rs) -/

/-- libc errno values used by the server. -/
def ENOENT : Nat := 2

/-- libc ENAMETOOLONG. -/
def ENAMETOOLONG : Nat := 36

/-- fuser::FileType values reachable from CcFs::to_file_type. -/
inductive FuseKind where
  | RegularFile
  | Directory
  | Symlink
deriving DecidableEq, Repr

/-- CcFs::to_file_type (src/fs.rs); none embeds the panic on the
unhandled CharDevice variant. -/
def to_file_type : FileType → Option FuseKind
  | .RegularFile => some .RegularFile
  | .Directory => some .Directory
  | .SymLink => some .Symlink
  | .HardLink => some .RegularFile
  | .CharDevice => none

/-- fuser::FileAttr as populated by CcFs::inode_to_attr; times are Unix
seconds. -/
structure FileAttr where
  ino : Nat
  size : Nat
  blocks : Nat
  atime : Nat
  mtime : Nat
  ctime : Nat
  crtime : Nat
  kind : FuseKind
  perm : Nat
  nlink : Nat
  uid : Nat
  gid : Nat
  rdev : Nat
  flags : Nat
  blksize : Nat
deriving DecidableEq, Repr

/-- CcFs::inode_to_attr (src/fs.rs): directories report size 4096,
symlinks the link length (none embeds the panic when extra is absent),
everything else inode.size; perm is mode as u16. -/
def inode_to_attr (ino : Nat) (inode : Inode) : Option FileAttr := do
  let size ←
    match inode.typeflag with
    | .Directory => some 4096
    | .SymLink =>
      match inode.extra with
      | some e => some e.link.length
      | none => none
    | _ => some inode.size
  let kind ← to_file_type inode.typeflag
  some { ino := ino, size := size, blocks := size / 4096, atime := inode.mtime,
         mtime := inode.mtime, ctime := inode.mtime, crtime := inode.mtime,
         kind := kind, perm := inode.mode % 65536, nlink := inode.links,
         uid := inode.uid, gid := inode.gid, rdev := 0, flags := 0, blksize := 4096 }

/-- Reply of CcFs::lookup. -/
inductive LookupReply where
  | entry (ino : Nat) (attr : FileAttr)
  | error (errno : Nat)
deriving DecidableEq, Repr

/-- The binary search over the parent's child slice performed by
CcFs::lookup (name comparison only). -/
def lookupSearch (inodes : List Inode) (parent : Nat) (name : List Nat) : BSearch :=
  let inode := inodes.getD parent default
  binarySearchBy
    ((inodes.take (inode.child_inode + inode.num_children)).drop inode.child_inode)
    (fun a => compareBytes a.name name)

/-- CcFs::lookup (src/fs.rs): name-length and parent checks, binary
search among the children, hard-link substitution (the dereferenced
inode is used when resolution returns a positive inode), and the
attribute reply.  The UTF-8 check on the name is elided (byte
embedding); none embeds the panics (slice bounds, attribute panic,
unbounded hard-link resolution). -/
def lookup (hlFuel : Nat) (inodes : List Inode) (parentIno : Nat) (name : List Nat) :
    Option LookupReply :=
  if 255 < name.length then some (.error ENAMETOOLONG)
  else if inodes.length ≤ parentIno then some (.error ENOENT)
  else
    let inode := inodes.getD parentIno default
    if inode.child_inode + inode.num_children ≤ inodes.length then
      match lookupSearch inodes parentIno name with
      | .ok idx =>
        let child_ino := inode.child_inode + idx
        match get_hard_link_target inodes hlFuel child_ino with
        | none => none
        | some resolved =>
          let ci := if 0 < resolved then resolved else child_ino
          match inode_to_attr ci (inodes.getD ci default) with
          | none => none
          | some attr => some (.entry ci attr)
      | .err _ => some (.error ENOENT)
    else none

/-- One directory entry as pushed into the fuser reply buffer; off is
the resumption cursor supplied with the entry. -/
structure DirEntry where
  ino : Nat
  off : Nat
  kind : FuseKind
  name : List Nat
deriving DecidableEq, Repr

/-- Outcome of one CcFs::readdir call. -/
inductive ReaddirResult where
  | error (errno : Nat)
  | panicked
  | entries (es : List DirEntry)
deriving DecidableEq, Repr

/-- fuser ReplyDirectory::add with an explicit buffer capacity (number
of entries the kernel buffer still accepts): returns the new buffer and
true when the buffer was full (entry not accepted). -/
def replyAdd (cap : Nat) (acc : List DirEntry) (e : DirEntry) : List DirEntry × Bool :=
  if acc.length < cap then (acc ++ [e], false) else (acc, true)

/-- The child loop of CcFs::readdir: children are processed from the
beginning, skipped until their cursor o = i + 2 reaches the requested
offset, and added with cursor o + 1 until the buffer is full.  none
embeds the to_file_type panic. -/
def readdirChildren (inodes : List Inode) (cap childInode offset : Nat) :
    Nat → Nat → List DirEntry → Option (List DirEntry)
  | 0, _, acc => some acc
  | rem + 1, i, acc =>
    let o := i + 2
    if offset ≤ o then
      let child := inodes.getD (childInode + i) default
      match to_file_type child.typeflag with
      | none => none
      | some kind =>
        let r := replyAdd cap acc
          { ino := childInode + i, off := o + 1, kind := kind, name := child.name }
        if r.2 then some r.1
        else readdirChildren inodes cap childInode offset rem (i + 1) r.1
    else readdirChildren inodes cap childInode offset rem (i + 1) acc

/-- CcFs::readdir (src/fs.rs): for offset at most 2 the dot entries are
pushed with cursors 2 and 3 (their add results are ignored), the parent
being located with find; then the children.  panicked embeds the
could-not-find-parent panic and the to_file_type panic. -/
def readdir (inodes : List Inode) (ino offset cap : Nat) : ReaddirResult :=
  if inodes.length ≤ ino then .error ENOENT
  else
    let inode := inodes.getD ino default
    let dots : Option (List DirEntry) :=
      if offset ≤ 2 then
        let r1 := replyAdd cap [] { ino := ino, off := 2, kind := .Directory, name := [46] }
        match find inodes inode.parent 0 ino with
        | some p =>
          some (replyAdd cap r1.1 { ino := p, off := 3, kind := .Directory, name := [46, 46] }).1
        | none => none
      else some []
    match dots with
    | none => .panicked
    | some acc1 =>
      match readdirChildren inodes cap inode.child_inode offset inode.num_children 0 acc1 with
      | none => .panicked
      | some acc2 => .entries acc2

/-- The kernel driver protocol around readdir: an initial call at offset
0, and after each reply a resumption call at the cursor supplied with
the last accepted entry, until a call returns no entries.  One capacity
per call; the capacity list bounds the number of calls. -/
def readdirSeq (inodes : List Inode) (ino : Nat) : Nat → List Nat → Option (List DirEntry)
  | _, [] => some []
  | offset, cap :: caps =>
    match readdir inodes ino offset cap with
    | .entries [] => some []
    | .entries es =>
      match es.getLast? with
      | some last =>
        match readdirSeq inodes ino last.off caps with
        | some more => some (es ++ more)
        | none => none
      | none => some []
    | _ => none

/-- Observable actions of CcFs::read, in program order. -/
inductive ReadEvent where
  | replyError (errno : Nat)
  | replyData (bytes : List Nat)
  | panicAbort
deriving DecidableEq, Repr

/-- FileExt::read_exact_at into a zeroed buffer of length n, with the
error ignored by the caller (src/fs.rs uses let _ = ...): the available
bytes fill the buffer from the front, the rest stays zero.  When the
whole range is within the file this is exactly the tar segment. -/
def read_exact_at (tar : List Nat) (off n : Nat) : List Nat :=
  (tar.drop off).take n ++ List.replicate (n - (tar.drop off).length) 0

/-- The verification loop of CcFs::read: verify each 4096-byte chunk of
the buffer (the final chunk may be shorter) against consecutive saved
states; false covers every non-Ok(true) outcome, each of which panics.
The fuel is a bound on the chunk count. -/
def verifyPages (h : Hasher) : Nat → Nat → List Nat → Bool
  | _, _, [] => true
  | 0, _, _ :: _ => false
  | fuel + 1, page, buf =>
    match h.verify page (buf.take 4096) with
    | some true => verifyPages h fuel (page + 1) (buf.drop 4096)
    | _ => false

/-- CcFs::read (src/fs.rs), as the ordered list of its observable
actions.  The salient point is the order: reply.data is issued before
the verification loop runs, and a verification failure then panics. -/
def read (idx : Index) (tar : List Nat) (ino offset size : Nat) : List ReadEvent :=
  if idx.inodes.length ≤ ino then [.replyError ENOENT]
  else
    let inode := idx.inodes.getD ino default
    match inode.typeflag with
    | FileType.RegularFile =>
      let size' := min size inode.size
      let endo := offset + size'
      let start := offset / 4096 * 4096
      let bytes := endo - start
      let buf_size := (bytes + 511) / 512 * 512
      let tar_offset := (inode.offset * 512 + start) % 4294967296
      let slice := read_exact_at tar tar_offset bytes
      let buf := slice ++ List.replicate (buf_size - bytes) 0
      let page0 := (start % 4294967296 / 4096 + inode.hash_index) % 4294967296
      .replyData (slice.drop (offset % 4096)) ::
        (if verifyPages idx.hasher (buf.length / 4096 + 1) page0 buf then []
         else [.panicAbort])
    | _ => [.replyError ENOENT]

/-! ## Comparator infrastructure and concrete instances -/

/-- The comparator key of an inode: exactly the four fields inspected by
cmp_inodes. -/
def inodeKey (a : Inode) : Nat × Nat × List Nat × List Nat :=
  (a.depth, a.parent.length, a.parent, a.name)

/-- cmp_inodes expressed on keys. -/
def keyCmp (k1 k2 : Nat × Nat × List Nat × List Nat) : Ordering :=
  match natCmp k1.1 k2.1 with
  | .eq =>
    match natCmp k1.2.1 k2.2.1 with
    | .eq =>
      match compareBytes k1.2.2.1 k2.2.2.1 with
      | .eq => compareBytes k1.2.2.2 k2.2.2.2
      | o => o
    | o => o
  | o => o

/-- Lexicographic combination of two comparators. -/
def lexComb {α : Type} (f g : α → α → Ordering) : α → α → Ordering := fun a b =>
  match f a b with
  | .eq => g a b
  | o => o

/-- keyCmp as a relation: not greater. -/
def keyLe (k1 k2 : Nat × Nat × List Nat × List Nat) : Prop := keyCmp k1 k2 ≠ .gt

instance : DecidableRel keyLe := fun a b => by unfold keyLe; infer_instance

/-- Strict sortedness of an inode list under cmp_inodes (every adjacent
pair strictly increasing), the property asserted by the specification. -/
def strictlySortedInodes : List Inode → Bool
  | [] => true
  | [_] => true
  | a :: b :: rest =>
    decide (cmp_inodes a b = .lt) && strictlySortedInodes (b :: rest)

/-- Lawfulness of an Ordering-valued comparator: swap antisymmetry,
transitivity of lt, and congruence of eq. -/
structure LawfulCmp {α : Type} (f : α → α → Ordering) : Prop where
  swap_eq : ∀ a b, f a b = (f b a).swap
  lt_trans : ∀ {a b c}, f a b = .lt → f b c = .lt → f a c = .lt
  eq_congr : ∀ {a b}, f a b = .eq → ∀ c, f a c = f b c

/-! ### Concrete instances used by the counterexamples and witnesses -/

/-- 512 bytes of file content as stored in a tar data block: the 13
bytes of text followed by the zero padding. -/
def sampleContent : List Nat :=
  [72, 101, 108, 108, 111, 44, 32, 87, 111, 114, 108, 100, 33] ++ List.replicate 499 0

/-- A hasher whose saved states are the honest pre/post states of the
one content page of sampleContent. -/
def sampleHasher : Hasher :=
  { states := [sha256Init, compressBlocks sha256Init sampleContent]
    state := sha256Init
    len := 512 }

/-- A 13-byte regular file whose content starts at tar block 0. -/
def sampleFile : Inode :=
  { typeflag := .RegularFile, name := [104], parent := [47], depth := 1,
    size := 13, offset := 0, hash_index := 0, links := 1 }

/-- Root with one child. -/
def sampleRoot : Inode := { rootInode with child_inode := 2, num_children := 1 }

/-- A processed index over sampleContent. -/
def sampleIdx : Index :=
  { inodes := [rootInode, sampleRoot, sampleFile], hasher := sampleHasher }

/-- The backing tar with its first content byte flipped (72 becomes
88): a single-byte tampering of the data the index was built over. -/
def tamperedTar : List Nat := 88 :: List.drop 1 sampleContent

/-- Hard link a whose target path b is itself a hard link. -/
def cycleA : Inode :=
  { typeflag := .HardLink, name := [97], parent := [47], depth := 1, links := 1,
    extra := some { link := [98] } }

/-- Hard link b whose target path a is itself a hard link. -/
def cycleB : Inode :=
  { typeflag := .HardLink, name := [98], parent := [47], depth := 1, links := 1,
    extra := some { link := [97] } }

/-- Root with two children. -/
def twoChildRoot : Inode := { rootInode with child_inode := 2, num_children := 2 }

/-- An inode table holding a two-cycle of hard links, as produced by a
tar with entries a (link to b) and b (link to a). -/
def cycleInodes : List Inode := [rootInode, twoChildRoot, cycleA, cycleB]

/-- Regular file a. -/
def plainA : Inode :=
  { typeflag := .RegularFile, name := [97], parent := [47], depth := 1, links := 1 }

/-- Regular file b. -/
def plainB : Inode :=
  { typeflag := .RegularFile, name := [98], parent := [47], depth := 1, links := 1 }

/-- A processed directory table: root with the two children a and b. -/
def twoChildInodes : List Inode := [rootInode, twoChildRoot, plainA, plainB]

/-- A hard link whose target path z does not exist in the table. -/
def danglingLink : Inode :=
  { typeflag := .HardLink, name := [97], parent := [47], depth := 1, links := 1,
    extra := some { link := [122] } }

/-- An inode table with a dangling hard link as the root's only child. -/
def danglingInodes : List Inode := [rootInode, sampleRoot, danglingLink]

/-- A loaded (unprocessed) index holding only the two root copies, as
built by Parser::parse over an empty input. -/
def twoRootIndex : Index := { inodes := [rootInode, rootInode], hasher := Hasher.new }

/-- A regular file a in the root directory, as loaded from an index
file (fields as the parser records them). -/
def flatFile : Inode :=
  { typeflag := .RegularFile, name := [97], parent := [47], depth := 1 }

/-- A loaded index with the two roots and one regular file. -/
def flatIndex : Index :=
  { inodes := [rootInode, rootInode, flatFile], hasher := Hasher.new }

/-- An all-zero tar header with typeflag 0 (regular file) and no name:
the octal fields parse as zero and the size is zero. -/
def emptyFileHdr : List Nat :=
  List.replicate 156 0 ++ 48 :: List.replicate 355 0

/-- The parser state seeded by Parser::parse (two roots, fresh
hasher). -/
def seedPState : PState :=
  { index := { inodes := [rootInode, rootInode], hasher := Hasher.new } }

/-! ## General helper lemmas -/

example : compressBlocks sha256Init (sha256Pad 0) =
    [3820012610, 2566659092, 2600203464, 2574235940,
     665731556, 1687917388, 2761267483, 2018687061] := by decide

/-! ### Basic facts about compressBlocks -/

theorem compressBlocksAux_fuel :
    ∀ n m s b, b.length ≤ n → b.length ≤ m →
      compressBlocksAux n s b = compressBlocksAux m s b := by
  intro n
  induction n with
  | zero =>
    intro m s b hn _
    have : b = [] := List.eq_nil_of_length_eq_zero (Nat.le_zero.mp hn)
    subst this
    cases m <;> rfl
  | succ n ih =>
    intro m s b hn hm
    cases b with
    | nil => cases m <;> rfl
    | cons x xs =>
      have hm1 : ∃ k, m = k + 1 := by
        cases m with
        | zero => simp at hm
        | succ k => exact ⟨k, rfl⟩
      obtain ⟨k, rfl⟩ := hm1
      show compressBlocksAux n (compress1 s ((x :: xs).take 64)) ((x :: xs).drop 64)
          = compressBlocksAux k (compress1 s ((x :: xs).take 64)) ((x :: xs).drop 64)
      exact ih k _ _ (by simp at hn ⊢; omega) (by simp at hm ⊢; omega)

theorem compressBlocks_nil (s : List Nat) : compressBlocks s [] = s := rfl

theorem compressBlocks_cons (s : List Nat) (x : Nat) (xs : List Nat) :
    compressBlocks s (x :: xs)
      = compressBlocks (compress1 s ((x :: xs).take 64)) ((x :: xs).drop 64) := by
  show compressBlocksAux ((x :: xs).length) s (x :: xs) = _
  have hlen : (x :: xs).length = xs.length + 1 := by simp
  rw [hlen]
  show compressBlocksAux xs.length (compress1 s ((x :: xs).take 64)) ((x :: xs).drop 64) = _
  exact compressBlocksAux_fuel _ _ _ _ (by simp) (by simp)

/-- Compressing a concatenation whose first part is block-aligned equals
compressing the parts in sequence. -/
theorem compressBlocks_append_aux :
    ∀ n s b1 b2, b1.length ≤ n → b1.length % 64 = 0 →
      compressBlocks s (b1 ++ b2) = compressBlocks (compressBlocks s b1) b2 := by
  intro n
  induction n with
  | zero =>
    intro s b1 b2 hn _
    have : b1 = [] := List.eq_nil_of_length_eq_zero (Nat.le_zero.mp hn)
    subst this
    simp [compressBlocks_nil]
  | succ n ih =>
    intro s b1 b2 hn h64
    cases b1 with
    | nil => simp [compressBlocks_nil]
    | cons x xs =>
      have hge : 64 ≤ (x :: xs).length := by
        simp at h64 ⊢
        omega
      rw [show ((x :: xs) ++ b2) = x :: (xs ++ b2) by simp]
      rw [compressBlocks_cons s x (xs ++ b2), compressBlocks_cons s x xs]
      rw [show (x :: (xs ++ b2)) = (x :: xs) ++ b2 by simp]
      rw [List.take_append_of_le_length hge, List.drop_append_of_le_length hge]
      exact ih _ _ _ (by simp at hn ⊢; omega) (by simp at h64 ⊢; omega)

theorem compressBlocks_append (s : List Nat) (b1 b2 : List Nat)
    (h64 : b1.length % 64 = 0) :
    compressBlocks s (b1 ++ b2) = compressBlocks (compressBlocks s b1) b2 :=
  compressBlocks_append_aux b1.length s b1 b2 le_rfl h64

theorem getD_set_self {α : Type} [Inhabited α] (l : List α) (i : Nat) (x d : α)
    (h : i < l.length) : (l.set i x).getD i d = x := by
  simp [List.getD_eq_getElem?_getD, List.getElem?_set, h]

theorem getD_set_ne {α : Type} [Inhabited α] (l : List α) (i j : Nat) (x d : α)
    (h : i ≠ j) : (l.set i x).getD j d = l.getD j d := by
  simp [List.getD_eq_getElem?_getD, List.getElem?_set, h]

/-- The data reply of CcFs::read: for a valid regular inode, when the
requested span lies inside the tar (and the u32 offset arithmetic does
not wrap), the first observable action is a data reply carrying exactly
min size inode.size bytes taken from the tar at inode.offset * 512 +
offset. -/
theorem read_reply_bytes (idx : Index) (tar : List Nat) (ino offset size : Nat)
    (hino : ino < idx.inodes.length)
    (hreg : (idx.inodes.getD ino default).typeflag = .RegularFile)
    (hwrap : (idx.inodes.getD ino default).offset * 512 + offset < 4294967296)
    (htar : (idx.inodes.getD ino default).offset * 512 + offset
        + min size (idx.inodes.getD ino default).size ≤ tar.length) :
    (read idx tar ino offset size).head?
      = some (.replyData
          ((tar.drop ((idx.inodes.getD ino default).offset * 512 + offset)).take
            (min size (idx.inodes.getD ino default).size))) := by
  have hnot : ¬ idx.inodes.length ≤ ino := Nat.not_le.mpr hino
  unfold read
  rw [if_neg hnot]
  simp only [hreg]
  simp only [List.head?_cons, Option.some.injEq, ReadEvent.replyData.injEq]
  set I := idx.inodes.getD ino default with hI
  set ms := min size I.size with hms
  set start := offset / 4096 * 4096 with hstart
  have hstartle : start ≤ offset := by omega
  have hmodlt : I.offset * 512 + start < 4294967296 := by omega
  have htoff : (I.offset * 512 + start) % 4294967296 = I.offset * 512 + start :=
    Nat.mod_eq_of_lt hmodlt
  rw [htoff]
  set bytes := offset + ms - start with hbytes
  have hin : I.offset * 512 + start + bytes ≤ tar.length := by omega
  have hdlen : bytes ≤ (tar.drop (I.offset * 512 + start)).length := by
    rw [List.length_drop]; omega
  unfold read_exact_at
  rw [show bytes - (tar.drop (I.offset * 512 + start)).length = 0 by omega]
  rw [List.replicate_zero, List.append_nil, List.drop_take, List.drop_drop]
  have h1 : bytes - offset % 4096 = ms := by omega
  have h2 : I.offset * 512 + start + offset % 4096 = I.offset * 512 + offset := by omega
  rw [h1, h2]

/-! ### Comparator lemmas -/

theorem natCmp_eq_iff (a b : Nat) : natCmp a b = .eq ↔ a = b := by
  unfold natCmp
  split_ifs <;> simp <;> omega

theorem natCmp_lt_iff (a b : Nat) : natCmp a b = .lt ↔ a < b := by
  unfold natCmp
  split_ifs <;> simp <;> omega

theorem natCmp_gt_iff (a b : Nat) : natCmp a b = .gt ↔ b < a := by
  unfold natCmp
  split_ifs <;> simp <;> omega

theorem natCmp_swap (a b : Nat) : natCmp a b = (natCmp b a).swap := by
  rcases Nat.lt_trichotomy a b with h | h | h
  · rw [(natCmp_lt_iff _ _).mpr h, show natCmp b a = .gt from (natCmp_gt_iff _ _).mpr h]
    rfl
  · subst h
    rw [(natCmp_eq_iff _ _).mpr rfl]
    rfl
  · rw [(natCmp_gt_iff _ _).mpr h, show natCmp b a = .lt from (natCmp_lt_iff _ _).mpr h]
    rfl

theorem lawful_natCmp : LawfulCmp natCmp := by
  refine ⟨natCmp_swap, ?_, ?_⟩
  · intro a b c hab hbc
    rw [natCmp_lt_iff] at *
    omega
  · intro a b hab c
    rw [(natCmp_eq_iff _ _).mp hab]

theorem compareBytes_eq_iff : ∀ (a b : List Nat), compareBytes a b = .eq ↔ a = b := by
  intro a
  induction a with
  | nil =>
    intro b
    cases b <;> simp [compareBytes]
  | cons x xs ih =>
    intro b
    cases b with
    | nil => simp [compareBytes]
    | cons y ys =>
      show (match natCmp x y with
            | .eq => compareBytes xs ys
            | o => o) = .eq ↔ x :: xs = y :: ys
      cases h : natCmp x y with
      | eq =>
        have hxy := (natCmp_eq_iff _ _).mp h
        simp [hxy, ih ys]
      | lt =>
        have hxy := (natCmp_lt_iff _ _).mp h
        constructor
        · intro hc
          exact absurd hc (by simp)
        · intro hc
          injection hc with h1 h2
          exact absurd h1 (by omega)
      | gt =>
        have hxy := (natCmp_gt_iff _ _).mp h
        constructor
        · intro hc
          exact absurd hc (by simp)
        · intro hc
          injection hc with h1 h2
          exact absurd h1 (by omega)

theorem compareBytes_swap : ∀ (a b : List Nat), compareBytes a b = (compareBytes b a).swap := by
  intro a
  induction a with
  | nil =>
    intro b
    cases b <;> rfl
  | cons x xs ih =>
    intro b
    cases b with
    | nil => rfl
    | cons y ys =>
      show (match natCmp x y with
            | .eq => compareBytes xs ys
            | o => o)
          = (match natCmp y x with
             | .eq => compareBytes ys xs
             | o => o).swap
      rw [natCmp_swap x y]
      cases h : natCmp y x with
      | lt => rfl
      | gt => rfl
      | eq =>
        show compareBytes xs ys = (compareBytes ys xs).swap
        exact ih ys

theorem compareBytes_lt_trans :
    ∀ (a b c : List Nat), compareBytes a b = .lt → compareBytes b c = .lt →
      compareBytes a c = .lt := by
  intro a
  induction a with
  | nil =>
    intro b c hab hbc
    cases b with
    | nil => exact absurd hab (by simp [compareBytes])
    | cons y ys =>
      cases c with
      | nil => exact absurd hbc (by simp [compareBytes])
      | cons z zs => rfl
  | cons x xs ih =>
    intro b c hab hbc
    cases b with
    | nil => exact absurd hab (by simp [compareBytes])
    | cons y ys =>
      cases c with
      | nil => exact absurd hbc (by simp [compareBytes])
      | cons z zs =>
        have hab' : (match natCmp x y with
            | .eq => compareBytes xs ys
            | o => o) = .lt := hab
        have hbc' : (match natCmp y z with
            | .eq => compareBytes ys zs
            | o => o) = .lt := hbc
        show (match natCmp x z with
              | .eq => compareBytes xs zs
              | o => o) = .lt
        cases h1 : natCmp x y with
        | gt => rw [h1] at hab'; exact absurd hab' (by simp)
        | lt =>
          have hxy := (natCmp_lt_iff _ _).mp h1
          cases h2 : natCmp y z with
          | gt => rw [h2] at hbc'; exact absurd hbc' (by simp)
          | lt =>
            have hyz := (natCmp_lt_iff _ _).mp h2
            rw [(natCmp_lt_iff _ _).mpr (by omega : x < z)]
          | eq =>
            have hyz := (natCmp_eq_iff _ _).mp h2
            rw [(natCmp_lt_iff _ _).mpr (by omega : x < z)]
        | eq =>
          have hxy := (natCmp_eq_iff _ _).mp h1
          rw [h1] at hab'
          cases h2 : natCmp y z with
          | gt => rw [h2] at hbc'; exact absurd hbc' (by simp)
          | lt =>
            have hyz := (natCmp_lt_iff _ _).mp h2
            rw [(natCmp_lt_iff _ _).mpr (by omega : x < z)]
          | eq =>
            have hyz := (natCmp_eq_iff _ _).mp h2
            rw [h2] at hbc'
            rw [(natCmp_eq_iff _ _).mpr (by omega : x = z)]
            exact ih ys zs hab' hbc'

theorem lawful_compareBytes : LawfulCmp compareBytes := by
  refine ⟨compareBytes_swap, ?_, ?_⟩
  · intro a b c hab hbc
    exact compareBytes_lt_trans a b c hab hbc
  · intro a b hab c
    rw [(compareBytes_eq_iff _ _).mp hab]

theorem LawfulCmp.eq_congr_r {α : Type} {f : α → α → Ordering} (L : LawfulCmp f)
    {a b : α} (hab : f a b = .eq) (c : α) : f c a = f c b := by
  rw [L.swap_eq c a, L.swap_eq c b, L.eq_congr hab c]

theorem LawfulCmp.le_trans {α : Type} {f : α → α → Ordering} (L : LawfulCmp f)
    {a b c : α} (hab : f a b ≠ .gt) (hbc : f b c ≠ .gt) : f a c ≠ .gt := by
  cases hf : f a b with
  | gt => exact absurd hf hab
  | eq => rw [L.eq_congr hf c]; exact hbc
  | lt =>
    cases hg : f b c with
    | gt => exact absurd hg hbc
    | eq => rw [← L.eq_congr_r hg a, hf]; simp
    | lt => rw [L.lt_trans hf hg]; simp

theorem LawfulCmp.total {α : Type} {f : α → α → Ordering} (L : LawfulCmp f)
    (a b : α) : f a b ≠ .gt ∨ f b a ≠ .gt := by
  cases hf : f a b with
  | lt => exact Or.inl (by decide)
  | eq => exact Or.inl (by decide)
  | gt =>
    refine Or.inr ?_
    have hs := L.swap_eq a b
    rw [hf] at hs
    cases hg : f b a with
    | lt => decide
    | eq => rw [hg] at hs; exact absurd hs (by decide)
    | gt => rw [hg] at hs; exact absurd hs (by decide)

theorem LawfulCmp.comap {α β : Type} {f : α → α → Ordering} (L : LawfulCmp f)
    (g : β → α) : LawfulCmp (fun x y => f (g x) (g y)) := by
  refine ⟨?_, ?_, ?_⟩
  · intro a b; exact L.swap_eq (g a) (g b)
  · intro a b c hab hbc; exact L.lt_trans hab hbc
  · intro a b hab c; exact L.eq_congr hab (g c)

theorem LawfulCmp.lex {α : Type} {f g : α → α → Ordering}
    (Lf : LawfulCmp f) (Lg : LawfulCmp g) : LawfulCmp (lexComb f g) := by
  refine ⟨?_, ?_, ?_⟩
  · intro a b
    show (match f a b with
          | .eq => g a b
          | o => o)
        = (match f b a with
           | .eq => g b a
           | o => o).swap
    have hs := Lf.swap_eq a b
    cases hf : f b a with
    | lt => rw [hf] at hs; rw [hs]; rfl
    | gt => rw [hf] at hs; rw [hs]; rfl
    | eq =>
      rw [hf] at hs; rw [hs]
      show g a b = (g b a).swap
      exact Lg.swap_eq a b
  · intro a b c hab hbc
    simp only [lexComb] at hab hbc ⊢
    cases h1 : f a b with
    | gt => rw [h1] at hab; exact absurd hab (by simp)
    | lt =>
      rw [h1] at hab
      cases h2 : f b c with
      | gt => rw [h2] at hbc; exact absurd hbc (by simp)
      | lt => rw [Lf.lt_trans h1 h2]
      | eq => rw [← Lf.eq_congr_r h2 a, h1]
    | eq =>
      rw [h1] at hab
      cases h2 : f b c with
      | gt => rw [h2] at hbc; exact absurd hbc (by simp)
      | lt =>
        rw [h2] at hbc
        rw [Lf.eq_congr h1 c, h2]
      | eq =>
        rw [h2] at hbc
        rw [Lf.eq_congr h1 c, h2]
        exact Lg.lt_trans hab hbc
  · intro a b hab c
    simp only [lexComb] at hab ⊢
    cases h1 : f a b with
    | lt => rw [h1] at hab; exact absurd hab (by simp)
    | gt => rw [h1] at hab; exact absurd hab (by simp)
    | eq =>
      rw [h1] at hab
      rw [Lf.eq_congr h1 c, Lg.eq_congr hab c]

theorem lawful_cmp_inodes : LawfulCmp cmp_inodes := by
  have he : cmp_inodes
      = lexComb (fun x y : Inode => natCmp x.depth y.depth)
          (lexComb (fun x y : Inode => natCmp x.parent.length y.parent.length)
            (lexComb (fun x y : Inode => compareBytes x.parent y.parent)
              (fun x y : Inode => compareBytes x.name y.name))) := rfl
  rw [he]
  exact (lawful_natCmp.comap _).lex
    ((lawful_natCmp.comap _).lex
      ((lawful_compareBytes.comap _).lex (lawful_compareBytes.comap _)))

instance : IsTrans Inode inodeLe :=
  ⟨fun _ _ _ hab hbc => lawful_cmp_inodes.le_trans hab hbc⟩

instance : IsTotal Inode inodeLe :=
  ⟨fun a b => lawful_cmp_inodes.total a b⟩

/-! ### Preservation of comparator keys by the process passes -/

/-- Setting position p to an inode with the same comparator key as the
element at p leaves the list of comparator keys unchanged. -/
theorem map_inodeKey_set (l : List Inode) (p : Nat) (y : Inode)
    (hy : inodeKey y = inodeKey (l.getD p default)) :
    (l.set p y).map inodeKey = l.map inodeKey := by
  induction l generalizing p with
  | nil => simp
  | cons x xs ih =>
    cases p with
    | zero =>
      rw [List.getD_cons_zero] at hy
      simp [hy]
    | succ q =>
      rw [List.getD_cons_succ] at hy
      simp only [List.set_cons_succ, List.map_cons]
      rw [ih _ hy]

theorem childLoop_mapKey :
    ∀ fuel (l : List Inode) cur i l', childLoop fuel l cur i = some l' →
      l'.map inodeKey = l.map inodeKey := by
  intro fuel
  induction fuel with
  | zero =>
    intro l cur i l' hp
    injection hp with h
    rw [← h]
  | succ n ih =>
    intro l cur i l' hp
    unfold childLoop at hp
    split at hp
    case isFalse =>
      injection hp with h
      rw [← h]
    case isTrue hi =>
      split at hp
      case isTrue hpe =>
        exact (ih _ _ _ _ hp).trans (map_inodeKey_set _ _ _ (by rfl))
      case isFalse hpe =>
        split at hp
        · exact absurd hp (by simp)
        next p hfind =>
          split at hp
          case isTrue =>
            exact (ih _ _ _ _ hp).trans
              ((map_inodeKey_set _ _ _ (by rfl)).trans
                (map_inodeKey_set _ _ _ (by rfl)))
          case isFalse => exact absurd hp (by simp)

theorem linkLoop_mapKey :
    ∀ (hlFuel fuel : Nat) (l : List Inode) i l', linkLoop hlFuel fuel l i = some l' →
      l'.map inodeKey = l.map inodeKey := by
  intro hlFuel fuel
  induction fuel with
  | zero =>
    intro l i l' hp
    injection hp with h
    rw [← h]
  | succ n ih =>
    intro l i l' hp
    unfold linkLoop at hp
    split at hp
    case isFalse =>
      injection hp with h
      rw [← h]
    case isTrue hi =>
      simp only [] at hp
      split at hp
      · exact absurd hp (by simp)
      next ino hres =>
        split at hp
        case isTrue =>
          exact (ih _ _ _ hp).trans
            ((map_inodeKey_set _ _ _ (by rfl)).trans
              ((map_inodeKey_set _ _ _ (by rfl)).trans
                (map_inodeKey_set _ _ _ (by rfl))))
        case isFalse =>
          exact (ih _ _ _ hp).trans (map_inodeKey_set _ _ _ (by rfl))

/-- Sortedness under the inode comparator depends only on the keys. -/
theorem sorted_of_map_inodeKey_eq {l l' : List Inode}
    (hmap : l'.map inodeKey = l.map inodeKey) (hs : List.Sorted inodeLe l) :
    List.Sorted inodeLe l' := by
  have h0 : List.Pairwise keyLe (l.map inodeKey) ↔ List.Pairwise inodeLe l :=
    List.pairwise_map
  have h1 : List.Pairwise keyLe (l'.map inodeKey) ↔ List.Pairwise inodeLe l' :=
    List.pairwise_map
  exact h1.mp (hmap ▸ h0.mpr hs)

/-- Hasher.measure on a block-aligned chunk. -/
theorem measure_eq (h : Hasher) (buf : List Nat) (h64 : buf.length % 64 = 0) :
    h.measure buf
      = some { h with state := compressBlocks h.state buf, len := h.len + buf.length } := by
  unfold Hasher.measure
  rw [if_pos h64]

theorem saveState_fst_states (h : Hasher) :
    (h.saveState).1.states.length = h.states.length + 1 := by
  simp [Hasher.saveState]

theorem saveState_fst_state (h : Hasher) : (h.saveState).1.state = h.state := rfl

theorem saveState_fst_len (h : Hasher) : (h.saveState).1.len = h.len := rfl

theorem saveState_snd (h : Hasher) : (h.saveState).2 = h.states.length % 4294967296 := rfl

/-- Full characterisation of the 4096-byte content loop of
Parser::parse_item: it consumes exactly 4096 * k bytes, compresses them
into the running state, and saves one snapshot per chunk. -/
theorem contentChunks_spec :
    ∀ (k : Nat) (h : Hasher) (input : List Nat) (h' : Hasher) (rest' : List Nat),
      contentChunks h k input = some (h', rest') →
      4096 * k ≤ input.length ∧
      rest' = input.drop (4096 * k) ∧
      h'.state = compressBlocks h.state (input.take (4096 * k)) ∧
      h'.len = h.len + 4096 * k ∧
      h'.states.length = h.states.length + k := by
  intro k
  induction k with
  | zero =>
    intro h input h' rest' hp
    simp only [contentChunks, Option.some.injEq, Prod.mk.injEq] at hp
    obtain ⟨rfl, rfl⟩ := hp
    refine ⟨by omega, by simp, by simp [compressBlocks_nil], by omega, by omega⟩
  | succ k ih =>
    intro h input h' rest' hp
    simp only [contentChunks] at hp
    split at hp
    case isFalse => exact absurd hp (by simp)
    case isTrue hlen =>
      have ht : (input.take 4096).length = 4096 := by
        rw [List.length_take]; omega
      rw [measure_eq h _ (by rw [ht])] at hp
      obtain ⟨hk, hrest, hstate, hlen', hstates⟩ := ih _ _ _ _ hp
      have htk : input.take (4096 * (k + 1))
          = input.take 4096 ++ (input.drop 4096).take (4096 * k) := by
        rw [show 4096 * (k + 1) = 4096 + 4096 * k by ring, List.take_add]
      refine ⟨?_, ?_, ?_, ?_, ?_⟩
      · have hdl : (input.drop 4096).length = input.length - 4096 :=
          List.length_drop 4096 input
        omega
      · rw [hrest, List.drop_drop, show 4096 + 4096 * k = 4096 * (k + 1) by ring]
      · rw [hstate, saveState_fst_state, htk, compressBlocks_append _ _ _ (by rw [ht])]
      · rw [hlen', saveState_fst_len]
        show h.len + (input.take 4096).length + 4096 * k = h.len + 4096 * (k + 1)
        rw [ht]
        ring
      · rw [hstates, saveState_fst_states]
        show h.states.length + 1 + k = h.states.length + (k + 1)
        omega

/-! ### Hasher accounting of the parser dispatch functions -/

/-- Splitting a compression at the 512-byte header boundary. -/
theorem compress_split512 (s : List Nat) (input : List Nat)
    (hlen : 512 ≤ input.length) :
    compressBlocks s input
      = compressBlocks (compressBlocks s (input.take 512)) (input.drop 512) := by
  conv_lhs => rw [← List.take_append_drop 512 input]
  rw [compressBlocks_append _ _ _ (by rw [List.length_take]; omega)]

/-- Splitting a compression at the header boundary and again after the
R bytes consumed by the dispatched item. -/
theorem compress_split (s : List Nat) (input : List Nat) (R : Nat)
    (hlen : 512 ≤ input.length) (hR : R ≤ input.length - 512)
    (h64 : R % 64 = 0) :
    compressBlocks s input
      = compressBlocks
          (compressBlocks (compressBlocks s (input.take 512))
            ((input.drop 512).take R))
          ((input.drop 512).drop R) := by
  rw [compress_split512 s input hlen]
  conv_lhs => rw [← List.take_append_drop R (input.drop 512)]
  rw [compressBlocks_append _ _ _
    (by rw [List.length_take, List.length_drop]; omega)]

/-- Parser::parse_pax consumes exactly rsize bytes of the remaining
input and measures them into the hasher. -/
theorem parse_pax_hasher (st : PState) (rest : List Nat) (st' : PState)
    (rest' : List Nat) (h64 : st.rsize % 64 = 0)
    (hp : parse_pax st rest = some (st', rest')) :
    st.rsize ≤ rest.length
    ∧ rest' = rest.drop st.rsize
    ∧ st'.index.hasher.state
        = compressBlocks st.index.hasher.state (rest.take st.rsize)
    ∧ st'.index.hasher.len = st.index.hasher.len + st.rsize := by
  simp only [parse_pax] at hp
  split at hp
  case isFalse => exact absurd hp (by simp)
  case isTrue hle =>
    have htk : (rest.take st.rsize).length = st.rsize := by
      rw [List.length_take]
      omega
    have h64t : (rest.take st.rsize).length % 64 = 0 := by
      rw [htk]
      omega
    simp only [measure_eq _ _ h64t] at hp
    split at hp
    · exact absurd hp (by simp)
    next ino1 ex1 hpl =>
      simp only [Option.some.injEq, Prod.mk.injEq] at hp
      obtain ⟨hst, hrest⟩ := hp
      subst hst
      subst hrest
      exact ⟨hle, rfl, rfl, by rw [show st.index.hasher.len + (rest.take st.rsize).length
        = st.index.hasher.len + st.rsize from by rw [htk]]⟩

/-- Parser::parse_gnu consumes exactly rsize bytes of the remaining
input and measures them into the hasher. -/
theorem parse_gnu_hasher (isLongName : Bool) (st : PState) (rest : List Nat)
    (st' : PState) (rest' : List Nat) (h64 : st.rsize % 64 = 0)
    (hp : parse_gnu isLongName st rest = some (st', rest')) :
    st.rsize ≤ rest.length
    ∧ rest' = rest.drop st.rsize
    ∧ st'.index.hasher.state
        = compressBlocks st.index.hasher.state (rest.take st.rsize)
    ∧ st'.index.hasher.len = st.index.hasher.len + st.rsize := by
  simp only [parse_gnu] at hp
  split at hp
  case isFalse => exact absurd hp (by simp)
  case isTrue hle =>
    have htk : (rest.take st.rsize).length = st.rsize := by
      rw [List.length_take]
      omega
    have h64t : (rest.take st.rsize).length % 64 = 0 := by
      rw [htk]
      omega
    simp only [measure_eq _ _ h64t] at hp
    split at hp
    all_goals
      simp only [Option.some.injEq, Prod.mk.injEq] at hp
      obtain ⟨hst, hrest⟩ := hp
      subst hst
      subst hrest
      exact ⟨hle, rfl, rfl, by rw [show st.index.hasher.len + (rest.take st.rsize).length
        = st.index.hasher.len + st.rsize from by rw [htk]]⟩

/-- Parser::parse_item consumes exactly rsize bytes of the remaining
input and measures them into the hasher (in 4096-byte chunks plus the
512-rounded residual). -/
theorem parse_item_hasher (hdr : List Nat) (st : PState) (rest : List Nat)
    (st' : PState) (rest' : List Nat) (h512 : st.rsize % 512 = 0)
    (hp : parse_item hdr st rest = some (st', rest')) :
    st.rsize ≤ rest.length
    ∧ rest' = rest.drop st.rsize
    ∧ st'.index.hasher.state
        = compressBlocks st.index.hasher.state (rest.take st.rsize)
    ∧ st'.index.hasher.len = st.index.hasher.len + st.rsize := by
  simp only [parse_item] at hp
  split at hp
  · exact absurd hp (by simp)
  next ino1 ex1 hph =>
    split at hp
    · exact absurd hp (by simp)
    next tf htf =>
      split at hp
      · exact absurd hp (by simp)
      next h1 rest1 hcc =>
        obtain ⟨hk, hrest1, hst1, hlen1, _⟩ := contentChunks_spec _ _ _ _ _ hcc
        by_cases hz : st.rsize % 4096 = 0
        case pos =>
          simp only [if_neg (show ¬ 0 < (st.rsize % 4096 + 511) / 512 * 512
              from by omega), Option.some.injEq, Prod.mk.injEq] at hp
          obtain ⟨hst, hrest⟩ := hp
          subst hst
          subst hrest
          refine ⟨by omega, ?_, ?_, ?_⟩
          · rw [hrest1, show 4096 * (st.rsize / 4096) = st.rsize from by omega]
          · show h1.state
                = compressBlocks st.index.hasher.state (rest.take st.rsize)
            rw [hst1, show 4096 * (st.rsize / 4096) = st.rsize from by omega]
            split <;> rfl
          · show h1.len = st.index.hasher.len + st.rsize
            rw [hlen1, show 4096 * (st.rsize / 4096) = st.rsize from by omega]
            split <;> rfl
        case neg =>
          have hrem : (st.rsize % 4096 + 511) / 512 * 512 = st.rsize % 4096 := by
            omega
          simp only [if_pos (show 0 < (st.rsize % 4096 + 511) / 512 * 512
            from by omega)] at hp
          split at hp
          · exact absurd hp (by simp)
          next h2v rest2 hif =>
            by_cases hle2 : (st.rsize % 4096 + 511) / 512 * 512 ≤ rest1.length
            case neg =>
              rw [if_neg hle2] at hif
              exact absurd hif (by simp)
            case pos =>
            have htk2 : (rest1.take ((st.rsize % 4096 + 511) / 512 * 512)).length
                = (st.rsize % 4096 + 511) / 512 * 512 := by
              rw [List.length_take]
              omega
            have h64t : (rest1.take ((st.rsize % 4096 + 511) / 512 * 512)).length
                % 64 = 0 := by
              rw [htk2]
              omega
            rw [if_pos hle2, measure_eq _ _ h64t, Option.map_some'] at hif
            simp only [Option.some.injEq, Prod.mk.injEq] at hif
            obtain ⟨hh2, hr2⟩ := hif
            subst hh2
            subst hr2
            simp only [Option.some.injEq, Prod.mk.injEq] at hp
            obtain ⟨hst, hrest⟩ := hp
            subst hst
            subst hrest
            rw [hrem] at hle2
            have hrlen : rest1.length = rest.length - 4096 * (st.rsize / 4096) := by
              rw [hrest1, List.length_drop]
            refine ⟨by omega, ?_, ?_, ?_⟩
            · rw [hrem, hrest1, List.drop_drop]
              congr 1
              omega
            · show compressBlocks h1.state
                  (rest1.take ((st.rsize % 4096 + 511) / 512 * 512))
                = compressBlocks st.index.hasher.state (rest.take st.rsize)
              rw [hst1, hrem, hrest1]
              conv_rhs =>
                rw [show st.rsize = 4096 * (st.rsize / 4096) + st.rsize % 4096
                    from by omega,
                  List.take_add]
              rw [compressBlocks_append _ _ _ (by rw [List.length_take]; omega)]
              split <;> rfl
            · show h1.len + (rest1.take ((st.rsize % 4096 + 511) / 512 * 512)).length
                = st.index.hasher.len + st.rsize
              rw [htk2, hlen1, hrem]
              split <;> (try simp only [saveState_fst_len]) <;> omega

/-- One step of the main parse loop composed with the remainder: a
header (512 bytes) plus a dispatched item (R bytes) followed by a
recursive run that accounts for the rest. -/
theorem parseLoop_step_compose (n : Nat)
    (ih : ∀ (input : List Nat) (st st' : PState),
      parseLoop n input st = some st' → input.length % 512 = 0 →
      st'.index.hasher.state = compressBlocks st.index.hasher.state input
      ∧ st'.index.hasher.len = st.index.hasher.len + input.length)
    (input : List Nat) (h0 : Hasher) (stA st' : PState) (rest3 : List Nat)
    (R : Nat)
    (hlen : 512 ≤ input.length) (hmod : input.length % 512 = 0)
    (hR512 : R % 512 = 0)
    (hcons : R ≤ input.length - 512)
    (hrest3 : rest3 = (input.drop 512).drop R)
    (hstA : stA.index.hasher.state
      = compressBlocks (compressBlocks h0.state (input.take 512))
          ((input.drop 512).take R))
    (hlenA : stA.index.hasher.len = h0.len + 512 + R)
    (hp : parseLoop n rest3 stA = some st') :
    st'.index.hasher.state = compressBlocks h0.state input
    ∧ st'.index.hasher.len = h0.len + input.length := by
  have hmod3 : rest3.length % 512 = 0 := by
    rw [hrest3, List.length_drop, List.length_drop]
    omega
  obtain ⟨hs, hl⟩ := ih rest3 stA st' hp hmod3
  constructor
  · rw [hs, hstA, hrest3, compress_split h0.state input R hlen hcons (by omega)]
  · rw [hl, hlenA, hrest3, List.length_drop, List.length_drop]
    omega

/-- The main loop of Parser::parse measures exactly its whole input
(when that input is a whole number of 512-byte records): the final
hasher state is the compression of the input from the starting state,
and the processed length grows by the input length. -/
theorem parseLoop_hasher :
    ∀ (fuel : Nat) (input : List Nat) (st st' : PState),
      parseLoop fuel input st = some st' →
      input.length % 512 = 0 →
      st'.index.hasher.state = compressBlocks st.index.hasher.state input
      ∧ st'.index.hasher.len = st.index.hasher.len + input.length := by
  intro fuel
  induction fuel with
  | zero =>
    intro input st st' hp hmod
    exact absurd hp (by simp [parseLoop])
  | succ n ih =>
    intro input st st' hp hmod
    simp only [parseLoop] at hp
    split at hp
    case isTrue hlt =>
      injection hp with h
      subst h
      have hnil : input = [] := List.eq_nil_of_length_eq_zero (by omega)
      subst hnil
      exact ⟨rfl, rfl⟩
    case isFalse hge =>
      have h64h : (input.take 512).length % 64 = 0 := by
        rw [List.length_take]
        omega
      simp only [measure_eq _ _ h64h] at hp
      split at hp
      · exact absurd hp (by simp)
      next size hsz =>
        split at hp
        case h_1 =>
          split at hp
          · exact absurd hp (by simp)
          next st3 rest3 hdisp =>
            obtain ⟨hcons, hrest3, hst3, hlen3⟩ :=
              parse_pax_hasher _ _ _ _
                (by show ((size + 512 - 1) / 512 * 512) % 64 = 0; omega) hdisp
            rw [List.length_drop] at hcons
            refine parseLoop_step_compose n ih input st.index.hasher
              (advOffset st3) st' rest3
              ((size + 512 - 1) / 512 * 512) (by omega) hmod (by omega) hcons
              hrest3 hst3 ?_ hp
            show st3.index.hasher.len
              = st.index.hasher.len + 512 + ((size + 512 - 1) / 512 * 512)
            rw [hlen3]
            show st.index.hasher.len + (input.take 512).length
                + ((size + 512 - 1) / 512 * 512)
              = st.index.hasher.len + 512 + ((size + 512 - 1) / 512 * 512)
            rw [List.length_take]
            omega
        case h_2 =>
          split at hp
          · exact absurd hp (by simp)
          next st3 rest3 hdisp =>
            obtain ⟨hcons, hrest3, hst3, hlen3⟩ :=
              parse_gnu_hasher _ _ _ _ _
                (by show ((size + 512 - 1) / 512 * 512) % 64 = 0; omega) hdisp
            rw [List.length_drop] at hcons
            refine parseLoop_step_compose n ih input st.index.hasher
              (advOffset st3) st' rest3
              ((size + 512 - 1) / 512 * 512) (by omega) hmod (by omega) hcons
              hrest3 hst3 ?_ hp
            show st3.index.hasher.len
              = st.index.hasher.len + 512 + ((size + 512 - 1) / 512 * 512)
            rw [hlen3]
            show st.index.hasher.len + (input.take 512).length
                + ((size + 512 - 1) / 512 * 512)
              = st.index.hasher.len + 512 + ((size + 512 - 1) / 512 * 512)
            rw [List.length_take]
            omega
        case h_3 =>
          split at hp
          · exact absurd hp (by simp)
          next st3 rest3 hdisp =>
            obtain ⟨hcons, hrest3, hst3, hlen3⟩ :=
              parse_gnu_hasher _ _ _ _ _
                (by show ((size + 512 - 1) / 512 * 512) % 64 = 0; omega) hdisp
            rw [List.length_drop] at hcons
            refine parseLoop_step_compose n ih input st.index.hasher
              (advOffset st3) st' rest3
              ((size + 512 - 1) / 512 * 512) (by omega) hmod (by omega) hcons
              hrest3 hst3 ?_ hp
            show st3.index.hasher.len
              = st.index.hasher.len + 512 + ((size + 512 - 1) / 512 * 512)
            rw [hlen3]
            show st.index.hasher.len + (input.take 512).length
                + ((size + 512 - 1) / 512 * 512)
              = st.index.hasher.len + 512 + ((size + 512 - 1) / 512 * 512)
            rw [List.length_take]
            omega
        case h_8 =>
          refine parseLoop_step_compose n ih input st.index.hasher _ st' _
            0 (by omega) hmod (by omega) (Nat.zero_le _) rfl rfl ?_ hp
          show st.index.hasher.len + (input.take 512).length
            = st.index.hasher.len + 512 + 0
          rw [List.length_take]
          omega
        case h_9 => exact absurd hp (by simp)
        all_goals (
          split at hp
          · exact absurd hp (by simp)
          next st3 rest3 hdisp =>
            obtain ⟨hcons, hrest3, hst3, hlen3⟩ :=
              parse_item_hasher _ _ _ _ _
                (by show ((size + 512 - 1) / 512 * 512) % 512 = 0; omega) hdisp
            rw [List.length_drop] at hcons
            refine parseLoop_step_compose n ih input st.index.hasher
              (advOffset st3) st' rest3
              ((size + 512 - 1) / 512 * 512) (by omega) hmod (by omega) hcons
              hrest3 hst3 ?_ hp
            show st3.index.hasher.len
              = st.index.hasher.len + 512 + ((size + 512 - 1) / 512 * 512)
            rw [hlen3]
            show st.index.hasher.len + (input.take 512).length
                + ((size + 512 - 1) / 512 * 512)
              = st.index.hasher.len + 512 + ((size + 512 - 1) / 512 * 512)
            rw [List.length_take]
            omega)

/-! ### Behaviour of the process loops on a flat (single-level) tree -/

/-- hard_link_step on an in-bounds inode that is not a hard link stops
with the inode's own number. -/
theorem hard_link_step_nonlink (inodes : List Inode) (ino : Nat) (x : Inode)
    (hget : inodes[ino]? = some x) (h : x.typeflag ≠ FileType.HardLink) :
    hard_link_step inodes ino = .stop (some ino) := by
  unfold hard_link_step
  rw [hget]
  cases hex : x.extra with
  | none => cases htf : x.typeflag <;> simp [hex, htf]
  | some e =>
    cases htf : x.typeflag
    case HardLink => exact absurd htf h
    all_goals simp [hex, htf]

/-- The child-collection loop over a table whose every post-root entry
names the root entry as its parent: it succeeds and adds one to the
root's child count for every remaining entry, touching nothing else. -/
theorem childLoop_flat :
    ∀ (fuel : Nat) (l : List Inode) (i : Nat),
      2 ≤ i → l.length ≤ i + fuel →
      (∀ j, j < l.length → 2 ≤ j →
        path_eq (l.getD 1 default) (l.getD j default).parent = true) →
      (l.getD 1 default).num_children + (l.length - i) < 4294967296 →
      ∃ l', childLoop fuel l 1 i = some l'
        ∧ l'.length = l.length
        ∧ (∀ j, j ≠ 1 → l'.getD j default = l.getD j default)
        ∧ (l'.getD 1 default).num_children
            = (l.getD 1 default).num_children + (l.length - i) := by
  intro fuel
  induction fuel with
  | zero =>
    intro l i h2 hlen hpe hov
    exact ⟨l, rfl, rfl, fun j _ => rfl, by omega⟩
  | succ n ih =>
    intro l i h2 hlen hpe hov
    by_cases hi : i < l.length
    case neg =>
      refine ⟨l, ?_, rfl, fun j _ => rfl, by omega⟩
      simp only [childLoop]
      rw [if_neg hi]
    case pos =>
      have h1l : 1 < l.length := by omega
      have hpei : path_eq (l.getD 1 default) (l.getD i default).parent = true :=
        hpe i hi h2
      have hstep : childLoop (n + 1) l 1 i
          = childLoop n (l.set 1 (bumpChildren (l.getD 1 default))) 1 (i + 1) := by
        simp only [childLoop]
        rw [if_pos hi, if_pos hpei]
      obtain ⟨l', hcl, hlen', hoth', hnc'⟩ :=
        ih (l.set 1 (bumpChildren (l.getD 1 default))) (i + 1) (by omega)
          (by rw [List.length_set]; omega)
          (fun j hj h2j => by
            rw [List.length_set] at hj
            rw [getD_set_self _ _ _ _ h1l, getD_set_ne _ _ _ _ _ (by omega)]
            exact hpe j hj h2j)
          (by
            rw [List.length_set, getD_set_self _ _ _ _ h1l]
            show ((l.getD 1 default).num_children + 1) % 4294967296
                + (l.length - (i + 1)) < 4294967296
            omega)
      refine ⟨l', hstep.trans hcl, by rw [hlen', List.length_set], ?_, ?_⟩
      · intro j hj
        rw [hoth' j hj]
        exact getD_set_ne _ _ _ _ _ (Ne.symm hj)
      · rw [hnc', List.length_set, getD_set_self _ _ _ _ h1l]
        show ((l.getD 1 default).num_children + 1) % 4294967296
            + (l.length - (i + 1))
            = (l.getD 1 default).num_children + (l.length - i)
        omega

/-- The hard-link pass over a table with no hard links among the
post-root entries: it succeeds and leaves the root entry unchanged. -/
theorem linkLoop_flat (hlF : Nat) :
    ∀ (fuel : Nat) (l : List Inode) (i : Nat),
      2 ≤ i → l.length ≤ i + fuel →
      (∀ j, j < l.length → 2 ≤ j →
        (l.getD j default).typeflag ≠ FileType.HardLink) →
      ∃ l', linkLoop (hlF + 1) fuel l i = some l'
        ∧ l'.length = l.length
        ∧ l'.getD 1 default = l.getD 1 default := by
  intro fuel
  induction fuel with
  | zero =>
    intro l i h2 hlen hnl
    exact ⟨l, rfl, rfl, rfl⟩
  | succ n ih =>
    intro l i h2 hlen hnl
    by_cases hi : i < l.length
    case neg =>
      refine ⟨l, ?_, rfl, rfl⟩
      simp only [linkLoop]
      rw [if_neg hi]
    case pos =>
      have hget : (l.set i (setLinks (l.getD i default) 1))[i]?
          = some (setLinks (l.getD i default) 1) := by
        simp [List.getElem?_set, hi]
      have hs1 : hard_link_step (l.set i (setLinks (l.getD i default) 1)) i
          = .stop (some i) :=
        hard_link_step_nonlink _ _ _ hget (hnl i hi h2)
      have hs2 : get_hard_link_target (l.set i (setLinks (l.getD i default) 1))
          (hlF + 1) i = some i := by
        simp only [get_hard_link_target, hs1]
      have hstep : linkLoop (hlF + 1) (n + 1) l i
          = linkLoop (hlF + 1) n (l.set i (setLinks (l.getD i default) 1))
            (i + 1) := by
        simp only [linkLoop, hs2]
        rw [if_pos hi, if_neg (show ¬(0 < i ∧ i ≠ i) from fun hc => hc.2 rfl)]
      obtain ⟨l', hll, hlen', hroot'⟩ :=
        ih (l.set i (setLinks (l.getD i default) 1)) (i + 1) (by omega)
          (by rw [List.length_set]; omega)
          (fun j hj h2j => by
            rw [List.length_set] at hj
            by_cases hji : j = i
            · subst hji
              rw [getD_set_self _ _ _ _ hj]
              exact hnl j hj h2j
            · rw [getD_set_ne _ _ _ _ _ (Ne.symm hji)]
              exact hnl j hj h2j)
      refine ⟨l', hstep.trans hll, by rw [hlen', List.length_set], ?_⟩
      rw [hroot']
      exact getD_set_ne _ _ _ _ _ (by omega)

/-! ## Claim theorems -/

/-- C2: For every regular-file inode in a processed index over an
untampered backing tar, and for all o and n with o + n at most
inode.size, Read(ino, o, n) replies with exactly the n bytes located at
byte offset inode.offset * 512 + o of the backing tar file.  (The
in-range and no-u32-wrap hypotheses spell out "untampered backing tar
holding this file".) -/
theorem c2_read_replies_exact_bytes (idx : Index) (tar : List Nat) (ino o n : Nat)
    (hino : ino < idx.inodes.length)
    (hreg : (idx.inodes.getD ino default).typeflag = .RegularFile)
    (hn : o + n ≤ (idx.inodes.getD ino default).size)
    (hwrap : (idx.inodes.getD ino default).offset * 512 + o < 4294967296)
    (htar : (idx.inodes.getD ino default).offset * 512 + o + n ≤ tar.length) :
    (read idx tar ino o n).head?
      = some (.replyData ((tar.drop ((idx.inodes.getD ino default).offset * 512 + o)).take n))
    ∧ ((tar.drop ((idx.inodes.getD ino default).offset * 512 + o)).take n).length = n := by
  have hmin : min n (idx.inodes.getD ino default).size = n := by omega
  constructor
  · have h := read_reply_bytes idx tar ino o n hino hreg hwrap (by omega)
    rwa [hmin] at h
  · rw [List.length_take, List.length_drop]; omega

/-- C2 witness: reading all 13 bytes of the sample file returns exactly
the 13 content bytes of the backing tar. -/
theorem c2_read_replies_exact_bytes_witness :
    (read sampleIdx sampleContent 2 0 13).head?
      = some (.replyData ((sampleContent.drop
          ((sampleIdx.inodes.getD 2 default).offset * 512 + 0)).take 13))
    ∧ ((sampleContent.drop ((sampleIdx.inodes.getD 2 default).offset * 512 + 0)).take 13).length
        = 13 :=
  c2_read_replies_exact_bytes sampleIdx sampleContent 2 0 13
    (by decide) (by decide) (by decide) (by decide) (by decide)

/-- C3: the claim asserts that the data reply is issued only after all
covering pages have verified, and that on failure the server aborts
instead of returning the data.  The code does the opposite: reply.data
is called before the verification loop.  Evaluated on a backing tar with
one flipped content byte, the read replies with the tampered bytes and
only then aborts, so the (tampered) data has already been returned. -/
theorem c3_reply_is_issued_before_verification :
    read sampleIdx tamperedTar 2 0 13
      = [.replyData [88, 101, 108, 108, 111, 44, 32, 87, 111, 114, 108, 100, 33],
         .panicAbort] := by decide

/-- C4: Index::get_hard_link_target never terminates on a cyclic
hard-link chain: on the two-cycle a -> b -> a the loop body steps from
inode 2 to inode 3 and back forever, so no amount of fuel produces a
result — the claim that it terminates and returns 0 on a cycle is
refuted (the spec is the intent; the code lacks any iteration bound). -/
theorem c4_hard_link_cycle_never_terminates :
    (∀ fuel, get_hard_link_target cycleInodes fuel 2 = none)
    ∧ hard_link_step cycleInodes 2 = .go 3
    ∧ hard_link_step cycleInodes 3 = .go 2 := by
  refine ⟨?_, by decide, by decide⟩
  have key : ∀ fuel, get_hard_link_target cycleInodes fuel 2 = none
      ∧ get_hard_link_target cycleInodes fuel 3 = none := by
    intro fuel
    induction fuel with
    | zero => exact ⟨rfl, rfl⟩
    | succ n ih =>
      constructor
      · show get_hard_link_target cycleInodes (n + 1) 2 = none
        simp only [get_hard_link_target]
        rw [show hard_link_step cycleInodes 2 = .go 3 from by decide]
        exact ih.2
      · show get_hard_link_target cycleInodes (n + 1) 3 = none
        simp only [get_hard_link_target]
        rw [show hard_link_step cycleInodes 3 = .go 2 from by decide]
        exact ih.1
  exact fun fuel => (key fuel).1

/-- C5: the claim asserts that the readdir call sequence enumerates .,
.. and each direct child exactly once for every truncation point.  With
no truncation the enumeration is correct (first conjunct), but when the
kernel buffer fills right after .., the resumption cursor 3 — which ..
shares with the first child — skips child a entirely (second conjunct):
the full call sequence yields ., .., b and never a. -/
theorem c5_readdir_resumption_skips_first_child :
    readdirSeq twoChildInodes 1 0 [10, 10]
      = some [⟨1, 2, .Directory, [46]⟩, ⟨1, 3, .Directory, [46, 46]⟩,
              ⟨2, 3, .RegularFile, [97]⟩, ⟨3, 4, .RegularFile, [98]⟩]
    ∧ readdirSeq twoChildInodes 1 0 [2, 10, 10]
      = some [⟨1, 2, .Directory, [46]⟩, ⟨1, 3, .Directory, [46, 46]⟩,
              ⟨3, 4, .RegularFile, [98]⟩] := by decide

/-- C6 counterexample: the claim says the effective read size is
clipped to inode.size - offset, so Read(2, 5, 13) on the 13-byte sample
file would serve min 13 (13 - 5) = 8 bytes.  The code clips to
inode.size instead and serves 13 bytes, the last five of which lie past
the end of the file content (here the tar padding zeros). -/
theorem c6_read_extends_past_eof :
    read sampleIdx sampleContent 2 5 13
      = [.replyData [44, 32, 87, 111, 114, 108, 100, 33, 0, 0, 0, 0, 0]]
    ∧ ([44, 32, 87, 111, 114, 108, 100, 33, 0, 0, 0, 0, 0] : List Nat).length = 13
    ∧ min 13 ((sampleIdx.inodes.getD 2 default).size - 5) = 8 := by decide

/-- C6 amended: in Read(ino, offset, size) the effective number of
bytes served is the requested size clipped to inode.size (not to
inode.size - offset); a read whose offset + size exceeds the file size
therefore serves bytes located past the end of the file content. -/
theorem c6_amended_clip_to_inode_size (idx : Index) (tar : List Nat) (ino o n : Nat)
    (hino : ino < idx.inodes.length)
    (hreg : (idx.inodes.getD ino default).typeflag = .RegularFile)
    (hwrap : (idx.inodes.getD ino default).offset * 512 + o < 4294967296)
    (htar : (idx.inodes.getD ino default).offset * 512 + o
        + min n (idx.inodes.getD ino default).size ≤ tar.length) :
    (read idx tar ino o n).head?
      = some (.replyData ((tar.drop ((idx.inodes.getD ino default).offset * 512 + o)).take
          (min n (idx.inodes.getD ino default).size)))
    ∧ ((tar.drop ((idx.inodes.getD ino default).offset * 512 + o)).take
        (min n (idx.inodes.getD ino default).size)).length
      = min n (idx.inodes.getD ino default).size := by
  refine ⟨read_reply_bytes idx tar ino o n hino hreg hwrap htar, ?_⟩
  rw [List.length_take, List.length_drop]
  omega

/-- C6 amended witness: Read(2, 5, 13) on the 13-byte file serves
min 13 13 = 13 bytes taken at tar offset 5. -/
theorem c6_amended_clip_to_inode_size_witness :
    (read sampleIdx sampleContent 2 5 13).head?
      = some (.replyData ((sampleContent.drop
          ((sampleIdx.inodes.getD 2 default).offset * 512 + 5)).take
          (min 13 (sampleIdx.inodes.getD 2 default).size)))
    ∧ ((sampleContent.drop ((sampleIdx.inodes.getD 2 default).offset * 512 + 5)).take
        (min 13 (sampleIdx.inodes.getD 2 default).size)).length
      = min 13 (sampleIdx.inodes.getD 2 default).size :=
  c6_amended_clip_to_inode_size sampleIdx sampleContent 2 5 13
    (by decide) (by decide) (by decide) (by decide)

/-- C7: for every regular file of size s handled by Parser::parse_item
(typeflag 48, with rsize the 512-rounding of s as computed by the main
loop), exactly ceil(s / 4096) + 1 hash states are saved for the file:
one immediately before its first content byte — its position recorded
in the pushed inode's hash_index — and one after each measured content
chunk.  An empty regular file gets exactly one snapshot. -/
theorem c7_regular_file_snapshot_count (hdr : List Nat) (st : PState)
    (rest : List Nat) (st' : PState) (rest' : List Nat)
    (htf : hdrTypeflag hdr = 48)
    (hrs : st.rsize = (st.size + 512 - 1) / 512 * 512)
    (hsmall : st.index.hasher.states.length < 4294967296)
    (hp : parse_item hdr st rest = some (st', rest')) :
    st'.index.hasher.states.length
      = st.index.hasher.states.length + ((st.size + 4095) / 4096 + 1)
    ∧ (st'.index.inodes.getLast?).map (fun x => x.hash_index)
      = some st.index.hasher.states.length := by
  unfold parse_item at hp
  simp only [htf, show typeflagMap 48 = some FileType.RegularFile from rfl,
    eq_self_iff_true, if_true] at hp
  split at hp
  · exact absurd hp (by simp)
  next ino1 ex1 hph =>
  split at hp
  · exact absurd hp (by simp)
  next h1 rest1 hcc =>
  obtain ⟨-, -, -, -, hst1⟩ := contentChunks_spec _ _ _ _ _ hcc
  rw [saveState_fst_states] at hst1
  split at hp
  · exact absurd hp (by simp)
  next h2 rest2 hr =>
  have hmod : st.index.hasher.states.length % 4294967296
      = st.index.hasher.states.length := Nat.mod_eq_of_lt hsmall
  have hlast : ∀ x : Inode,
      ((st.index.inodes ++ [x]).getLast?).map (fun y => y.hash_index)
        = some x.hash_index := by
    intro x
    rw [List.getLast?_concat]
    rfl
  have hs2 : h2.states.length = h1.states.length
      + (if 0 < (st.rsize % 4096 + 511) / 512 * 512 then 1 else 0) := by
    split at hr
    case isTrue hpos =>
      split at hr
      case isTrue hle =>
        rcases Option.map_eq_some'.mp hr with ⟨hm, hms, hfe⟩
        have hmeq : hm = { h1 with
            state := compressBlocks h1.state
              (rest1.take ((st.rsize % 4096 + 511) / 512 * 512))
            len := h1.len + (rest1.take ((st.rsize % 4096 + 511) / 512 * 512)).length } := by
          unfold Hasher.measure at hms
          split at hms
          case isTrue h64 => exact (Option.some.injEq _ _ ▸ hms).symm
          case isFalse => exact absurd hms (by simp)
        injection hfe with hf1 hf2
        rw [← hf1, saveState_fst_states, hmeq, if_pos hpos]
      case isFalse => exact absurd hr (by simp)
    case isFalse hpos =>
      obtain ⟨ha, hb⟩ : h1 = h2 ∧ rest1 = rest2 := by simpa using hr
      rw [← ha]
      simp [hpos]
  injection hp with hp0
  injection hp0 with hp1 hp2
  constructor
  · rw [← hp1]
    show h2.states.length = _
    rw [hs2, hst1]
    split
    case isTrue hpos => omega
    case isFalse hpos => omega
  · rw [← hp1]
    exact (hlast _).trans (congrArg some hmod)

/-- C7 witness: an empty regular file (all-zero header with typeflag
48) gets exactly ceil(0 / 4096) + 1 = 1 snapshot, and its hash_index is
the position of the state saved before its (empty) content. -/
theorem c7_regular_file_snapshot_count_witness :
    ((parse_item emptyFileHdr seedPState []).map fun pr =>
        (pr.1.index.hasher.states.length,
         (pr.1.index.inodes.getLast?).map fun x => x.hash_index))
      = some (seedPState.index.hasher.states.length + ((seedPState.size + 4095) / 4096 + 1),
              some seedPState.index.hasher.states.length) := by
  obtain ⟨pr, hpr⟩ : ∃ pr, parse_item emptyFileHdr seedPState [] = some pr := ⟨_, rfl⟩
  obtain ⟨h1, h2⟩ := c7_regular_file_snapshot_count emptyFileHdr seedPState [] pr.1 pr.2
    (by decide) (by decide) (by decide) (by rw [hpr])
  rw [hpr]
  show some (pr.1.index.hasher.states.length,
      (pr.1.index.inodes.getLast?).map fun x => x.hash_index) = _
  rw [h1, h2]

/-- C10: in Lookup, when the matched child is a HardLink whose
resolution fails (get_hard_link_target returns 0), the server does not
report an error: it replies with the link inode's own inode number and
that inode's attributes, with kind regular file. -/
theorem c10_lookup_dangling_hardlink (hlFuel : Nat) (inodes : List Inode)
    (parentIno : Nat) (name : List Nat) (i : Nat)
    (hname : name.length ≤ 255)
    (hpar : parentIno < inodes.length)
    (hslice : (inodes.getD parentIno default).child_inode
        + (inodes.getD parentIno default).num_children ≤ inodes.length)
    (hsearch : lookupSearch inodes parentIno name = .ok i)
    (hdangle : get_hard_link_target inodes hlFuel
        ((inodes.getD parentIno default).child_inode + i) = some 0)
    (htype : (inodes.getD ((inodes.getD parentIno default).child_inode + i) default).typeflag
        = .HardLink) :
    ∃ attr,
      lookup hlFuel inodes parentIno name
        = some (.entry ((inodes.getD parentIno default).child_inode + i) attr)
      ∧ attr.kind = .RegularFile
      ∧ attr.ino = (inodes.getD parentIno default).child_inode + i
      ∧ attr.size
          = (inodes.getD ((inodes.getD parentIno default).child_inode + i) default).size
      ∧ attr.nlink
          = (inodes.getD ((inodes.getD parentIno default).child_inode + i) default).links := by
  simp only [lookup, hsearch, hdangle]
  rw [if_neg (by omega), if_neg (by omega), if_pos hslice, if_neg (by omega)]
  simp only [inode_to_attr, htype, to_file_type]
  exact ⟨_, rfl, rfl, rfl, rfl, rfl⟩

/-- C10 witness: looking up the dangling hard link a in the concrete
table replies successfully with the link's own inode 2 and regular-file
attributes. -/
theorem c10_lookup_dangling_hardlink_witness :
    ∃ attr,
      lookup 1 danglingInodes 1 [97]
        = some (.entry ((danglingInodes.getD 1 default).child_inode + 0) attr)
      ∧ attr.kind = .RegularFile
      ∧ attr.ino = (danglingInodes.getD 1 default).child_inode + 0
      ∧ attr.size
          = (danglingInodes.getD ((danglingInodes.getD 1 default).child_inode + 0) default).size
      ∧ attr.nlink
          = (danglingInodes.getD ((danglingInodes.getD 1 default).child_inode + 0) default).links :=
  c10_lookup_dangling_hardlink 1 danglingInodes 1 [97] 0
    (by decide) (by decide) (by decide) (by decide) (by decide) (by decide)

/-- C8 counterexample: on the index produced by parsing an empty input
(the two synthetic root entries), process succeeds but its output is NOT
strictly sorted: entries 0 and 1 compare equal under cmp_inodes and
share the same (parent, name) pair. -/
theorem c8_duplicate_roots_not_strictly_sorted :
    (process 1 twoRootIndex).map (fun idx => strictlySortedInodes idx.inodes)
      = some false
    ∧ (process 1 twoRootIndex).map (fun idx =>
        decide (cmp_inodes (idx.inodes.getD 0 default) (idx.inodes.getD 1 default)
          = .eq)
        && decide ((idx.inodes.getD 0 default).parent
          = (idx.inodes.getD 1 default).parent)
        && decide ((idx.inodes.getD 0 default).name
          = (idx.inodes.getD 1 default).name)) = some true := by
  constructor
  · decide
  · decide

/-- C8 amended: after Index::process returns, the inode vector is sorted
(non-strictly) under the comparator (depth, parent length, parent,
name); strictness fails because the two synthetic root entries compare
equal, so duplicate (parent, name) pairs can survive processing. -/
theorem c8_amended_process_output_sorted (hlFuel : Nat) (idx idx' : Index)
    (hp : process hlFuel idx = some idx') : List.Sorted inodeLe idx'.inodes := by
  simp only [process] at hp
  split at hp
  case isFalse => exact absurd hp (by simp)
  case isTrue h2 =>
    split at hp
    · exact absurd hp (by simp)
    next l1 hcl =>
      split at hp
      · exact absurd hp (by simp)
      next l3 hll =>
        injection hp with h
        subst h
        show List.Sorted inodeLe l3
        have hl3 := linkLoop_mapKey hlFuel _ _ _ _ hll
        have hl2 : (l1.set 1 (setLinks (l1.getD 1 default) 2)).map inodeKey
            = l1.map inodeKey := map_inodeKey_set _ _ _ (by rfl)
        have hl1 := childLoop_mapKey _ _ _ _ _ hcl
        have hl0 : ((List.insertionSort inodeLe idx.inodes).set 1
              (setChildInode ((List.insertionSort inodeLe idx.inodes).getD 1 default)
                2)).map inodeKey
            = (List.insertionSort inodeLe idx.inodes).map inodeKey :=
          map_inodeKey_set _ _ _ (by rfl)
        exact sorted_of_map_inodeKey_eq
          ((hl3.trans hl2).trans (hl1.trans hl0))
          (List.sorted_insertionSort inodeLe idx.inodes)

/-- C8 witness: the amended theorem applies to the concrete two-root
index, yielding a sorted output list. -/
theorem c8_amended_process_output_sorted_witness :
    ∃ idx', process 1 twoRootIndex = some idx'
      ∧ List.Sorted inodeLe idx'.inodes := by
  obtain ⟨idx', hp⟩ : ∃ idx', process 1 twoRootIndex = some idx' := ⟨_, rfl⟩
  exact ⟨idx', hp, c8_amended_process_output_sorted 1 twoRootIndex idx' hp⟩

/-- C9 counterexample: process is not idempotent.  On the three-inode
index with one regular file in the root directory, the first run of
process records one root child, but running process again on its output
re-runs the counting loop and leaves the root with two children. -/
theorem c9_second_process_changes_index :
    (process 1 flatIndex).map
        (fun i1 => (i1.inodes.getD 1 default).num_children) = some 1
    ∧ ((process 1 flatIndex).bind (fun i1 => process 1 i1)).map
        (fun i2 => (i2.inodes.getD 1 default).num_children) = some 2 := by
  constructor
  · decide
  · decide

/-- C9 amended: Index::process is not idempotent.  On a sorted index
whose post-root entries all live in the root directory and hold no hard
links (the shape produced by a previous successful run of process over a
flat tree), a further run of process succeeds but adds the number of
post-root entries to the root's child count again, instead of leaving
the fields unchanged. -/
theorem c9_amended_reprocess_reincrements_children (hlF : Nat) (idx : Index)
    (h2 : 2 ≤ idx.inodes.length)
    (hsorted : List.Sorted inodeLe idx.inodes)
    (hpe : ∀ j, j < idx.inodes.length → 2 ≤ j →
      path_eq (idx.inodes.getD 1 default) (idx.inodes.getD j default).parent
        = true)
    (hnl : ∀ j, j < idx.inodes.length → 2 ≤ j →
      (idx.inodes.getD j default).typeflag ≠ FileType.HardLink)
    (hov : (idx.inodes.getD 1 default).num_children + (idx.inodes.length - 2)
      < 4294967296) :
    ∃ idx', process (hlF + 1) idx = some idx'
      ∧ (idx'.inodes.getD 1 default).num_children
          = (idx.inodes.getD 1 default).num_children
            + (idx.inodes.length - 2) := by
  have h1l : 1 < idx.inodes.length := by omega
  have hse : List.insertionSort inodeLe idx.inodes = idx.inodes :=
    hsorted.insertionSort_eq
  obtain ⟨l1, hcl, hlen1, hoth1, hnc1⟩ :=
    childLoop_flat
      (List.length (idx.inodes.set 1 (setChildInode (idx.inodes.getD 1 default) 2)))
      (idx.inodes.set 1 (setChildInode (idx.inodes.getD 1 default) 2)) 2
      le_rfl (Nat.le_add_left _ _)
      (fun j hj h2j => by
        rw [List.length_set] at hj
        rw [getD_set_self _ _ _ _ h1l, getD_set_ne _ _ _ _ _ (by omega)]
        exact hpe j hj h2j)
      (by
        rw [List.length_set, getD_set_self _ _ _ _ h1l]
        exact hov)
  have hlen1' : l1.length = idx.inodes.length := by rw [hlen1, List.length_set]
  obtain ⟨l3, hll, hlen3, hroot3⟩ :=
    linkLoop_flat hlF
      (List.length (l1.set 1 (setLinks (l1.getD 1 default) 2)))
      (l1.set 1 (setLinks (l1.getD 1 default) 2)) 2
      le_rfl (Nat.le_add_left _ _)
      (fun j hj h2j => by
        rw [List.length_set, hlen1'] at hj
        rw [getD_set_ne _ _ _ _ _ (by omega), hoth1 j (by omega),
          getD_set_ne _ _ _ _ _ (by omega)]
        exact hnl j hj h2j)
  refine ⟨{ idx with inodes := l3 }, ?_, ?_⟩
  · simp only [process, hse]
    rw [if_pos h2]
    simp only [hcl, hll]
  · show (l3.getD 1 default).num_children = _
    rw [hroot3, getD_set_self _ _ _ _ (show 1 < l1.length by omega)]
    show (l1.getD 1 default).num_children = _
    rw [hnc1, List.length_set, getD_set_self _ _ _ _ h1l]
    rfl

/-- C9 witness: the amended theorem applied to the concrete flat index
(one regular file under the root). -/
theorem c9_amended_reprocess_reincrements_children_witness :
    ∃ idx', process 1 flatIndex = some idx'
      ∧ (idx'.inodes.getD 1 default).num_children
          = (flatIndex.inodes.getD 1 default).num_children
            + (flatIndex.inodes.length - 2) :=
  c9_amended_reprocess_reincrements_children 0 flatIndex (by decide) (by decide)
    (by decide) (by decide) (by decide)

/-- C1: for every well-formed tar byte stream (a whole number of
512-byte records) accepted by Parser::parse, the digest stored in the
returned index is the reference SHA-256 of the entire byte stream,
rendered as 64 lowercase hex character codes. -/
theorem c1_parse_digest_is_reference_sha256 (T : List Nat) (idx : Index)
    (hmod : T.length % 512 = 0) (hp : parse T = some idx) :
    idx.hasher.digest = sha256Ref T := by
  simp only [parse] at hp
  split at hp
  · exact absurd hp (by simp)
  next stF hloop =>
    split at hp
    · exact absurd hp (by simp)
    next hF hfin =>
      injection hp with h
      subst h
      obtain ⟨hstate, hlen⟩ := parseLoop_hasher _ _ _ _ hloop hmod
      simp only [Hasher.finalize] at hfin
      have hb : (128 :: (List.replicate 55 0
          ++ be64 (stF.index.hasher.len * 8 % 18446744073709551616))).length
          % 64 = 0 := by
        simp [be64]
      rw [measure_eq _ _ hb, Option.map_some'] at hfin
      injection hfin with h2
      subst h2
      show hexState (compressBlocks stF.index.hasher.state
          (128 :: (List.replicate 55 0
            ++ be64 (stF.index.hasher.len * 8 % 18446744073709551616))))
        = sha256Ref T
      rw [hstate, hlen]
      show hexState (compressBlocks (compressBlocks sha256Init T)
          (128 :: (List.replicate 55 0
            ++ be64 ((0 + T.length) * 8 % 18446744073709551616))))
        = sha256Ref T
      have hpad : (128 :: (List.replicate 55 0
          ++ be64 ((0 + T.length) * 8 % 18446744073709551616)))
          = sha256Pad T.length := by
        unfold sha256Pad
        rw [Nat.zero_add, Nat.mul_comm T.length 8,
          show T.length % 64 = 0 from by omega]
      rw [hpad]
      unfold sha256Ref
      rw [compressBlocks_append _ _ _ (by omega)]

/-- C1 witness: the empty tar stream (zero records) parses, and the
stored digest is the reference SHA-256 of the empty byte sequence. -/
theorem c1_parse_digest_is_reference_sha256_witness :
    ∃ idx, parse [] = some idx ∧ ([] : List Nat).length % 512 = 0
      ∧ idx.hasher.digest = sha256Ref [] := by
  obtain ⟨idx, hp⟩ : ∃ idx, parse [] = some idx := ⟨_, rfl⟩
  exact ⟨idx, hp, rfl, c1_parse_digest_is_reference_sha256 [] idx rfl hp⟩

end Cc
